import Mathlib

/-!
# Verification of the de Bruijn assembler (`debruijn.py`)

Shallow embedding of the core of `src/debruijn/debruijn.py` and proofs about it.

Modelling conventions:
* Python `str` is modelled as `List Char`; slicing `s[:-1]`, `s[1:]`, `s[i:i+k]`
  become `dropLast`, `drop 1`, `(drop i).take k`.
* Python `int` is `Int`; the float values produced by `statistics.mean` are
  modelled as exact rationals `ℚ` (the `statistics` module computes the mean and
  variance with exact fraction arithmetic before the final float conversion).
* An `nx.DiGraph` is a pair of insertion-ordered lists: the node list and the
  edge list keyed by the ordered node pair, each edge carrying its
  `weight` attribute.  `predecessors`/`successors` iterate in edge insertion
  order, as the adjacency dictionaries of networkx do.
* Fallible Python code (raising `StatisticsError`, `IndexError`, `ValueError`)
  is modelled with `Option`: `none` is an uncaught exception.
* `statistics.stdev xs > 0` is embedded as `sampleVar xs > 0`: the standard
  deviation is the nonnegative square root of the sample variance, so the two
  comparisons agree, and the variance is rational-valued while the standard
  deviation is not.
* The process-wide seeded random source (`random.seed(9001)`; `random.randint`)
  is passed explicitly as a function argument `rand : Int → Int → Int`,
  `rand a b` being the value `random.randint(a, b)` returns at that call.
-/

abbrev Node : Type := List Char

/-- An `nx.DiGraph` with integer `weight` attributes: node list in insertion
order and edge list in insertion order, keyed by the (source, target) pair. -/
structure Graph where
  nodes : List Node
  edges : List ((Node × Node) × Int)
deriving DecidableEq, Inhabited

/-- `graph.has_node(n)`. -/
def Graph.hasNode (g : Graph) (n : Node) : Bool :=
  decide (n ∈ g.nodes)

/-- `graph.has_edge(u, v)`. -/
def Graph.hasEdge (g : Graph) (u v : Node) : Bool :=
  (g.edges.find? (fun e => decide (e.1 = (u, v)))).isSome

/-- `graph[u][v]['weight']`: the weight of the edge `u → v`, `none` when the
edge is absent (Python raises `KeyError`). -/
def Graph.weight? (g : Graph) (u v : Node) : Option Int :=
  (g.edges.find? (fun e => decide (e.1 = (u, v)))).map (fun e => e.2)

/-- `list(graph.predecessors(n))`: sources of the edges into `n`, in edge
insertion order. -/
def Graph.predecessors (g : Graph) (n : Node) : List Node :=
  (g.edges.filter (fun e => decide (e.1.2 = n))).map (fun e => e.1.1)

/-- `list(graph.successors(n))`: targets of the edges out of `n`, in edge
insertion order. -/
def Graph.successors (g : Graph) (n : Node) : List Node :=
  (g.edges.filter (fun e => decide (e.1.1 = n))).map (fun e => e.1.2)

/-- `graph.add_node(n)` (only called when the node is absent). -/
def Graph.addNode (g : Graph) (n : Node) : Graph :=
  { g with nodes := g.nodes ++ [n] }

/-- `graph.add_edge(u, v, weight=c)` for endpoints already present. -/
def Graph.addEdge (g : Graph) (u v : Node) (c : Int) : Graph :=
  { g with edges := g.edges ++ [((u, v), c)] }

/-- `graph[u][v]['weight'] += c`. -/
def Graph.incEdge (g : Graph) (u v : Node) (c : Int) : Graph :=
  { g with edges := g.edges.map (fun e => if e.1 = (u, v) then (e.1, e.2 + c) else e) }

/-- Removing one node: drop it from the node list and drop every incident
edge; a node not in the graph is ignored (`remove_nodes_from` semantics). -/
def Graph.removeNode (g : Graph) (n : Node) : Graph :=
  { nodes := g.nodes.filter (fun m => decide (¬ m = n)),
    edges := g.edges.filter (fun e => decide (¬ e.1.1 = n ∧ ¬ e.1.2 = n)) }

/-- `graph.remove_nodes_from(l)`. -/
def Graph.removeNodesFrom (g : Graph) (l : List Node) : Graph :=
  l.foldl Graph.removeNode g

/-- Sum of the `weight` attributes over all edges. -/
def Graph.sumWeights (g : Graph) : Int :=
  (g.edges.map (fun e => e.2)).sum

/-! ## Statistics helpers (`statistics.mean`, `statistics.stdev`, `max`,
`list.index`, Python indexing) -/

/-- Exact rational arithmetic, written through `Rat.divInt` on raw
numerators and denominators so that the kernel can evaluate it (the
built-in `Rat` field operations are `@[irreducible]`).  Each operation is
proved equal to the corresponding field operation below. -/
def qadd (a b : ℚ) : ℚ := Rat.divInt (a.num * b.den + b.num * a.den) (a.den * b.den)

/-- Exact rational subtraction (see `qadd`). -/
def qsub (a b : ℚ) : ℚ := Rat.divInt (a.num * b.den - b.num * a.den) (a.den * b.den)

/-- Exact rational multiplication (see `qadd`). -/
def qmul (a b : ℚ) : ℚ := Rat.divInt (a.num * b.num) (a.den * b.den)

/-- Exact rational division (see `qadd`). -/
def qdiv (a b : ℚ) : ℚ := Rat.divInt (a.num * b.den) (a.den * b.num)

/-- Sum of a list of rationals (see `qadd`). -/
def qsum : List ℚ → ℚ
  | [] => 0
  | x :: xs => qadd x (qsum xs)

/-- `statistics.mean`: raises `StatisticsError` on an empty list. -/
def pyMean? (xs : List ℚ) : Option ℚ :=
  if xs.length = 0 then none else some (qdiv (qsum xs) ((xs.length : ℚ)))

/-- The mean as a total function (only used on nonempty lists). -/
def pyMeanVal (xs : List ℚ) : ℚ :=
  qdiv (qsum xs) ((xs.length : ℚ))

/-- The sample variance `Σ (x - mean)² / (n - 1)`: the square of
`statistics.stdev`.  `statistics.stdev xs > 0 ↔ sampleVar xs > 0`, since the
standard deviation is the nonnegative square root of this value. -/
def sampleVar (xs : List ℚ) : ℚ :=
  qdiv (qsum (xs.map (fun x => qmul (qsub x (pyMeanVal xs)) (qsub x (pyMeanVal xs)))))
    (qsub ((xs.length : ℚ)) 1)

/-- `statistics.stdev` raises `StatisticsError` on fewer than two data
points; otherwise we record the (square of the) result. -/
def sampleVariance? (xs : List ℚ) : Option ℚ :=
  if xs.length < 2 then none else some (sampleVar xs)

/-- Python's two-argument `max`: keep the current value unless the new one
is strictly greater. -/
def pymax (a b : ℚ) : ℚ := if a < b then b else a

/-- Python `max` on a list of numbers (`ValueError` on an empty list). -/
def pyMax? : List ℚ → Option ℚ
  | [] => none
  | x :: xs => some (xs.foldl pymax x)

/-- Python `list.index(v)`: the first index holding `v`, `ValueError`
(`none`) when absent. -/
def pyIndexOf? : List ℚ → ℚ → Option Nat
  | [], _ => none
  | x :: xs, v => if x = v then some 0 else (pyIndexOf? xs v).map (fun i => i + 1)

/-- `xs.index(max(xs))`: first index of the maximum. -/
def pyIndexMax (xs : List ℚ) : Option Nat :=
  match pyMax? xs with
  | none => none
  | some m => pyIndexOf? xs m

/-- Python list indexing `xs[i]` with an `int` index: negative indices wrap
around once; out-of-range raises `IndexError` (`none`). -/
def pyGet {α : Type} (xs : List α) (i : Int) : Option α :=
  if 0 ≤ i then xs.get? i.toNat
  else if -(xs.length : Int) ≤ i then xs.get? (i + (xs.length : Int)).toNat
  else none

/-! ## `build_kmer_dict`, `cut_kmer`, `build_graph` -/

/-- `cut_kmer(read, kmer_size)`: the sliding windows
`read[i:i+kmer_size]` for `i in range(len(read) - kmer_size + 1)`
(Python's empty range for short reads is matched by truncated `Nat`
subtraction). -/
def cut_kmer (read : List Char) (kmer_size : Nat) : List (List Char) :=
  (List.range (read.length + 1 - kmer_size)).map (fun i => (read.drop i).take kmer_size)

/-- One `kmer_dict[kmer] += 1 / kmer_dict[kmer] = 1` step on the dictionary,
modelled as an insertion-ordered association list. -/
def bumpKmer (d : List (List Char × Int)) (kmer : List Char) : List (List Char × Int) :=
  if (d.find? (fun kv => decide (kv.1 = kmer))).isSome then
    d.map (fun kv => if kv.1 = kmer then (kv.1, kv.2 + 1) else kv)
  else
    d ++ [(kmer, 1)]

/-- `build_kmer_dict(fastq_file, kmer_size)`, with the fastq file modelled by
its list of read sequences.  The body calls `cut_kmer(read, 3)`: the
`kmer_size` argument is ignored by the source. -/
def build_kmer_dict (reads : List (List Char)) (kmer_size : Nat) : List (List Char × Int) :=
  reads.foldl (fun d read => (cut_kmer read 3).foldl bumpKmer d) []

/-- Dictionary lookup `d[k]` (`none` = `KeyError`). -/
def dictGet (d : List (List Char × Int)) (k : List Char) : Option Int :=
  (d.find? (fun kv => decide (kv.1 = k))).map (fun kv => kv.2)

/-- One iteration of `build_graph`'s loop for the pair `(kmer, count)`. -/
def insertKmerEdge (g : Graph) (kv : List Char × Int) : Graph :=
  let kmer := kv.1
  let count := kv.2
  let pref := kmer.dropLast
  let suff := kmer.drop 1
  let g1 := if g.hasNode pref then g else g.addNode pref
  let g2 := if g1.hasNode suff then g1 else g1.addNode suff
  if g2.hasEdge pref suff then g2.incEdge pref suff count
  else g2.addEdge pref suff count

/-- `build_graph(kmer_dict)`, the dictionary given in iteration
(= insertion) order. -/
def build_graph (kmer_dict : List (List Char × Int)) : Graph :=
  kmer_dict.foldl insertKmerEdge ⟨[], []⟩

/-! ## `remove_paths` and `select_best_path` -/

/-- The node slice removed for one path, per the two deletion flags:
`path`, `path[:-1]`, `path[1:]` or `path[1:-1]`. -/
def pathSlice (path : List Node) (delete_entry_node delete_sink_node : Bool) : List Node :=
  if delete_entry_node && delete_sink_node then path
  else if delete_entry_node && !delete_sink_node then path.dropLast
  else if !delete_entry_node && delete_sink_node then path.drop 1
  else (path.drop 1).dropLast

/-- `remove_paths(graph, path_list, delete_entry_node, delete_sink_node)`:
works on `graph.copy()` and removes, for every listed path, the slice of
nodes selected by the flags. -/
def remove_paths (graph : Graph) (path_list : List (List Node))
    (delete_entry_node delete_sink_node : Bool) : Graph :=
  path_list.foldl
    (fun ng path => ng.removeNodesFrom (pathSlice path delete_entry_node delete_sink_node))
    graph

/-- `select_best_path(graph, path_list, path_length, weight_avg_list,
delete_entry_node, delete_sink_node)`.  Both standard deviations are computed
up front (raising on fewer than two samples); the branch conditions
`stdev > 0` are embedded as `sampleVar > 0`. -/
def select_best_path (rand : Int → Int → Int) (graph : Graph)
    (path_list : List (List Node)) (path_length : List ℚ) (weight_avg_list : List ℚ)
    (delete_entry_node delete_sink_node : Bool) : Option Graph :=
  match sampleVariance? weight_avg_list, sampleVariance? path_length with
  | some std_poids, some std_long =>
    let idx : Option Int :=
      if 0 < std_poids then (pyIndexMax weight_avg_list).map Int.ofNat
      else if 0 < std_long then (pyIndexMax path_length).map Int.ofNat
      else some (rand 0 ((path_list.length : Int) - 1))
    match idx with
    | none => none
    | some i =>
      match pyGet path_list i with
      | none => none
      | some best_path =>
        some (path_list.foldl
          (fun h p => if p ≠ best_path then remove_paths h [p] delete_entry_node delete_sink_node else h)
          graph)
  | _, _ => none

/-! ## `path_average_weight` -/

/-- The edge list of `graph.subgraph(path)`: the edges of `graph` whose two
endpoints both lie in `path` (the subgraph induced by the path's node set). -/
def subgraphEdges (g : Graph) (path : List Node) : List ((Node × Node) × Int) :=
  g.edges.filter (fun e => decide (e.1.1 ∈ path ∧ e.1.2 ∈ path))

/-- `path_average_weight(graph, path)`: the `statistics.mean` of the weights
of the induced subgraph's edges. -/
def path_average_weight (g : Graph) (path : List Node) : Option ℚ :=
  pyMean? ((subgraphEdges g path).map (fun e => (e.2 : ℚ)))

example : pyMax? [1, 3, 2] = some 3 := by decide
example : pyIndexMax [1, 3, 3, 2] = some 1 := by decide
example : pyGet [10, 20, 30] (-1) = some (30 : Int) := by decide
example : cut_kmer ['a', 'b'] 3 = [] := by rfl
example : cut_kmer ['a', 'b', 'c', 'd'] 3 = [['a','b','c'], ['b','c','d']] := by rfl

/-! ## Reachability, `nx.lowest_common_ancestor`, `nx.all_simple_paths` -/

/-- One expansion step of a closure computation over the neighbour
function `next`. -/
def closureStep (next : Node → List Node) (acc : List Node) : List Node :=
  acc ++ ((acc.flatMap next).filter (fun x => decide (¬ x ∈ acc))).dedup

/-- Iterated closure (enough iterations make it the full reachable set). -/
def closureN (next : Node → List Node) : Nat → List Node → List Node
  | 0, acc => acc
  | fuel + 1, acc => closureN next fuel (closureStep next acc)

/-- `nx.ancestors(g, n) ∪ {n}`: the nodes from which `n` is reachable,
including `n` itself (as in networkx's LCA routine, which adds the node to
its own ancestor set). -/
def ancestorsPlus (g : Graph) (n : Node) : List Node :=
  closureN (g.predecessors) (g.nodes.length + 1) [n]

/-- The nodes reachable from `n`, including `n`. -/
def descendantsPlus (g : Graph) (n : Node) : List Node :=
  closureN (g.successors) (g.nodes.length + 1) [n]

/-- `nx.has_path(g, u, v)` (every node has a path to itself). -/
def has_path (g : Graph) (u v : Node) : Bool :=
  decide (v ∈ descendantsPlus g u)

/-- `True` iff some node lies on a directed cycle. -/
def isAcyclicB (g : Graph) : Bool :=
  g.nodes.all (fun n =>
    decide (¬ n ∈ closureN (g.successors) (g.nodes.length + 1) (g.successors n)))

/-- The walk-down loop of networkx's `all_pairs_lowest_common_ancestor`:
starting from a common ancestor, repeatedly move to the first successor that
is still a common ancestor, until none is. -/
def lcaWalkDown (g : Graph) (common : List Node) : Nat → Node → Node
  | 0, c => c
  | fuel + 1, c =>
    match (g.successors c).find? (fun s => decide (s ∈ common)) with
    | none => c
    | some s => lcaWalkDown g common fuel s

/-- `nx.lowest_common_ancestor(g, u, v, default=None)`: `none` exactly when
`u` and `v` have no common ancestor; otherwise a common ancestor from which
no further common ancestor is reachable by one edge (networkx starts the
walk-down from an arbitrary set element; we start from the first in our
deterministic ancestor order). -/
def lca (g : Graph) (u v : Node) : Option Node :=
  match (ancestorsPlus g u).filter (fun x => decide (x ∈ ancestorsPlus g v)) with
  | [] => none
  | c :: rest => some (lcaWalkDown g (c :: rest) (g.nodes.length + 1) c)

/-- The DFS behind `nx.all_simple_paths`: `visitedRev` is the reversed
current path, whose head is `current`.  A successor equal to the target
emits a path, a visited successor is skipped, any other successor is
explored.  The fuel bounds the recursion depth; `g.nodes.length` is enough
for every simple path of the graph. -/
def allSimplePathsAux (g : Graph) (target : Node) :
    Nat → Node → List Node → List (List Node)
  | 0, _, _ => []
  | fuel + 1, current, visitedRev =>
    (g.successors current).flatMap (fun s =>
      if s = target then [(s :: visitedRev).reverse]
      else if s ∈ visitedRev then []
      else allSimplePathsAux g target fuel s (s :: visitedRev))

/-- `list(nx.all_simple_paths(g, u, v))` (empty when `u = v`, as in
networkx). -/
def allSimplePaths (g : Graph) (u v : Node) : List (List Node) :=
  if u = v then [] else allSimplePathsAux g v g.nodes.length u [u]

/-! ## `solve_bubble`, `simplify_bubbles` -/

/-- The index pairs `(l[i], l[j])`, `i < j`: the `combinations` list built in
`simplify_bubbles`. -/
def indexPairs : List Node → List (Node × Node)
  | [] => []
  | x :: xs => xs.map (fun y => (x, y)) ++ indexPairs xs

/-- The scan of `simplify_bubbles`: the first node (in node order) having
more than one predecessor and a predecessor pair with a lowest common
ancestor, together with that ancestor; `none` when the scan finds no
bubble. -/
def findBubble (g : Graph) : Option (Node × Node) :=
  g.nodes.findSome? (fun node =>
    let preds := g.predecessors node
    if 1 < preds.length then
      (indexPairs preds).findSome? (fun c => (lca g c.1 c.2).map (fun a => (a, node)))
    else none)

/-- `solve_bubble(graph, ancestor_node, descendant_node)`. -/
def solve_bubble (rand : Int → Int → Int) (g : Graph)
    (ancestor_node descendant_node : Node) : Option Graph :=
  let paths := allSimplePaths g ancestor_node descendant_node
  let path_long := paths.map (fun p => (p.length : ℚ))
  match paths.mapM (path_average_weight g) with
  | none => none
  | some path_poid => select_best_path rand g paths path_long path_poid false false

/-- `simplify_bubbles(graph)`: resolve the first bubble found and recurse.
The source recursion has no structural bound; the `Nat` fuel counts the
recursion depth, `none` at fuel `0` marking a recursion that has not yet
reached a bubble-free scan. -/
def simplify_bubbles (rand : Int → Int → Int) : Nat → Graph → Option Graph
  | 0, _ => none
  | fuel + 1, g =>
    match findBubble g with
    | none => some g
    | some (anc, nd) =>
      match solve_bubble rand g anc nd with
      | none => none
      | some g' => simplify_bubbles rand fuel g'

/-! ## `solve_entry_tips`, `solve_out_tips` -/

/-- `solve_entry_tips(graph, starting_nodes)`. -/
def solve_entry_tips (rand : Int → Int → Int) (g : Graph)
    (starting_nodes : List Node) : Option Graph :=
  let path_list := g.nodes.flatMap (fun node =>
    if 1 < (g.predecessors node).length then
      starting_nodes.map (fun start => allSimplePaths g start node)
    else [])
  if path_list = [] then some g
  else
    let flat := path_list.flatMap (fun paths => paths)
    let path_length := flat.map (fun p => (p.length : ℚ))
    match flat.mapM (path_average_weight g) with
    | none => none
    | some weight_avg => select_best_path rand g flat path_length weight_avg true false

/-- `solve_out_tips(graph, ending_nodes)`. -/
def solve_out_tips (rand : Int → Int → Int) (g : Graph)
    (ending_nodes : List Node) : Option Graph :=
  let path_list := g.nodes.flatMap (fun node =>
    if 1 < (g.successors node).length then
      ending_nodes.map (fun e => allSimplePaths g node e)
    else [])
  if path_list = [] then some g
  else
    let flat := path_list.flatMap (fun paths => paths)
    let path_length := flat.map (fun p => (p.length : ℚ))
    match flat.mapM (path_average_weight g) with
    | none => none
    | some weight_avg => select_best_path rand g flat path_length weight_avg false true

/-! ## `get_contigs` -/

/-- The inner loop of `get_contigs` building one contig string: start with
the empty string, append the full node while the accumulator is empty,
afterwards append the node's last character (`node[-1]`, an `IndexError`
on an empty node). -/
def contig_of_path (p : List Node) : Option (List Char) :=
  p.foldlM
    (fun acc node =>
      if acc.length = 0 then some (acc ++ node)
      else (node.getLast?).map (fun c => acc ++ [c]))
    []

/-- `get_contigs(graph, starting_nodes, ending_nodes)`: for every
(start, end) pair with a path, every simple path contributes the pair
(contig string, its length), in iteration order. -/
def get_contigs (g : Graph) (starting_nodes ending_nodes : List Node) :
    Option (List (List Char × Nat)) :=
  (starting_nodes.flatMap (fun s => ending_nodes.flatMap (fun t =>
    if has_path g s t then allSimplePaths g s t else []))).mapM
    (fun p => (contig_of_path p).map (fun c => (c, c.length)))

/-! ## Heap model for the frame claim about `remove_paths`

`remove_paths` starts with `graph.copy()` and mutates only the copy.  We
model the Python heap as a list of `Graph` objects indexed by position
(`gid` = object identity); `copy` allocates a fresh object at the end of
the store, and all mutations of the body hit only that fresh object. -/

/-- `remove_paths` over the object store: reads the argument object, appends
the fully mutated copy, and returns the store together with the identity of
the copy. -/
def remove_paths_imp (store : List Graph) (gid : Nat)
    (path_list : List (List Node)) (delete_entry_node delete_sink_node : Bool) :
    List Graph × Nat :=
  let g := store.getD gid default
  (store ++ [remove_paths g path_list delete_entry_node delete_sink_node], store.length)

/-- `select_best_path` over the object store: the local variable `graph` is
rebound to each successive `remove_paths` result, so every iteration
allocates a fresh copy and the argument object is never written. -/
def select_best_path_imp (rand : Int → Int → Int) (store : List Graph) (gid : Nat)
    (path_list : List (List Node)) (path_length : List ℚ) (weight_avg_list : List ℚ)
    (delete_entry_node delete_sink_node : Bool) : Option (List Graph × Nat) :=
  match sampleVariance? weight_avg_list, sampleVariance? path_length with
  | some std_poids, some std_long =>
    let idx : Option Int :=
      if 0 < std_poids then (pyIndexMax weight_avg_list).map Int.ofNat
      else if 0 < std_long then (pyIndexMax path_length).map Int.ofNat
      else some (rand 0 ((path_list.length : Int) - 1))
    match idx with
    | none => none
    | some i =>
      match pyGet path_list i with
      | none => none
      | some best_path =>
        some (path_list.foldl
          (fun sc p =>
            if p ≠ best_path then
              remove_paths_imp sc.1 sc.2 [p] delete_entry_node delete_sink_node
            else sc)
          (store, gid))
  | _, _ => none

/-! ## Specification-side definition for claim C1 -/

/-- `i` is the first index of the maximum of `xs`: the value at `i` bounds
every entry, and every earlier entry is strictly smaller. -/
def FirstMaxIdx (xs : List ℚ) (i : Nat) : Prop :=
  ∃ hi : i < xs.length,
    (∀ j (hj : j < xs.length), xs.get ⟨j, hj⟩ ≤ xs.get ⟨i, hi⟩)
      ∧ ∀ j (hj : j < xs.length), j < i → xs.get ⟨j, hj⟩ < xs.get ⟨i, hi⟩

/-! ## Specification-side definition for claim C3 -/

/-- The mean claimed by the spec for `path_average_weight`: the arithmetic
mean of the weights of exactly the edges between consecutive nodes of the
path (no other edges contribute). -/
def consecMeanSpec (g : Graph) (p : List Node) : Option ℚ :=
  match (p.zip p.tail).mapM (fun uv => g.weight? uv.1 uv.2) with
  | none => none
  | some ws => pyMean? (ws.map (fun w : Int => (w : ℚ)))

/-! ## Specification-side definition for claim C7 -/

/-- The contig the spec promises for a path: the first node in full,
followed by the last character of every subsequent node. -/
def specContigSeq (p : List Node) : List Char :=
  (p.head?.getD []) ++ (p.tail.flatMap (fun n => (n.getLast?).toList))

/-! ## Specification-side definition for claim C4 -/

/-- One recursion step of `simplify_bubbles`: the scan finds a bubble and
`solve_bubble` resolves it, producing the graph the recursion continues
on. -/
def bubbleStep (rand : Int → Int → Int) (g g' : Graph) : Prop :=
  ∃ anc nd, findBubble g = some (anc, nd) ∧ solve_bubble rand g anc nd = some g'

/-! ## Concrete instances used in counterexamples and witnesses -/

/-- A deterministic stand-in for the seeded random source. -/
def randZero : Int → Int → Int := fun _ _ => 0

/-- Two nodes, one edge: `x → y`. -/
def gSingle : Graph := ⟨[['x'], ['y']], [((['x'], ['y']), 1)]⟩

/-- A path `a → b → c` with a heavy chord `a → c`. -/
def gChord : Graph :=
  ⟨[['a'], ['b'], ['c']],
   [((['a'], ['b']), 1), ((['b'], ['c']), 1), ((['a'], ['c']), 10)]⟩

/-- An acyclic bubble `a → p → n`, `a → n` whose heavier two-edge branch
wins, so resolving the bubble removes nothing. -/
def gLoop : Graph :=
  ⟨[['a'], ['p'], ['n']],
   [((['a'], ['p']), 5), ((['p'], ['n']), 5), ((['a'], ['n']), 1)]⟩

/-- A graph whose starting node is the empty string: one edge `"" → "ab"`. -/
def gEmptyNode : Graph := ⟨[[], ['a', 'b']], [(([], ['a', 'b']), 1)]⟩

/-- A bubble-free chain `a → b → c`. -/
def gChain : Graph :=
  ⟨[['a'], ['b'], ['c']], [((['a'], ['b']), 2), ((['b'], ['c']), 3)]⟩

/-! ## Specification-side definitions for claim C8 -/

/-- How many sliding-window positions of `read` hold the length-3 substring
`s`: the occurrence count of `s` among the 3-mers of `read`. -/
def substr3Count (read s : List Char) : Nat :=
  ((List.range (read.length + 1 - 3)).filter (fun i => decide ((read.drop i).take 3 = s))).length

/-- Total occurrence count of `s` as a length-3 substring across the reads. -/
def totalSubstr3 (reads : List (List Char)) (s : List Char) : Nat :=
  (reads.map (fun r => substr3Count r s)).sum

/-- Indicator sum: how many entries of `L` equal `s` (as an `Int`). -/
def indicatorSum (L : List (List Char)) (s : List Char) : Int :=
  (L.map (fun k => if s = k then (1 : Int) else 0)).sum

/-- The association list `d` realises the count function `C`. -/
def dictRealises (d : List (List Char × Int)) (C : List Char → Int) : Prop :=
  ∀ s, dictGet d s = if C s = 0 then none else some (C s)

/-! ## The `q`-operations agree with the field operations of `ℚ` -/

theorem qadd_eq (a b : ℚ) : qadd a b = a + b := by
  unfold qadd
  rw [Rat.divInt_eq_div]
  have ha : ((a.den : ℤ) : ℚ) ≠ 0 := by simp [Rat.den_nz a]
  have hb : ((b.den : ℤ) : ℚ) ≠ 0 := by simp [Rat.den_nz b]
  conv_rhs => rw [← Rat.num_div_den a, ← Rat.num_div_den b]
  push_cast at ha hb ⊢
  field_simp

theorem qsub_eq (a b : ℚ) : qsub a b = a - b := by
  unfold qsub
  rw [Rat.divInt_eq_div]
  have ha : ((a.den : ℤ) : ℚ) ≠ 0 := by simp [Rat.den_nz a]
  have hb : ((b.den : ℤ) : ℚ) ≠ 0 := by simp [Rat.den_nz b]
  conv_rhs => rw [← Rat.num_div_den a, ← Rat.num_div_den b]
  push_cast at ha hb ⊢
  field_simp
  ring

theorem qmul_eq (a b : ℚ) : qmul a b = a * b := by
  unfold qmul
  rw [Rat.divInt_eq_div]
  have ha : ((a.den : ℤ) : ℚ) ≠ 0 := by simp [Rat.den_nz a]
  have hb : ((b.den : ℤ) : ℚ) ≠ 0 := by simp [Rat.den_nz b]
  conv_rhs => rw [← Rat.num_div_den a, ← Rat.num_div_den b]
  push_cast at ha hb ⊢
  field_simp

theorem qdiv_eq (a b : ℚ) : qdiv a b = a / b := by
  unfold qdiv
  by_cases hb0 : b = 0
  · subst hb0
    simp [Rat.divInt_eq_div]
  · rw [Rat.divInt_eq_div]
    have ha : ((a.den : ℤ) : ℚ) ≠ 0 := by simp [Rat.den_nz a]
    have hb : ((b.den : ℤ) : ℚ) ≠ 0 := by simp [Rat.den_nz b]
    have hbn : ((b.num : ℤ) : ℚ) ≠ 0 := by simp [Rat.num_ne_zero.2 hb0]
    conv_rhs => rw [← Rat.num_div_den a, ← Rat.num_div_den b]
    push_cast at ha hb hbn ⊢
    field_simp

theorem qsum_eq (xs : List ℚ) : qsum xs = xs.sum := by
  induction xs with
  | nil => rfl
  | cons x t ih => rw [qsum, qadd_eq, ih, List.sum_cons]

theorem pyMeanVal_eq (xs : List ℚ) : pyMeanVal xs = xs.sum / (xs.length : ℚ) := by
  unfold pyMeanVal
  rw [qdiv_eq, qsum_eq]

theorem sampleVar_eq (xs : List ℚ) :
    sampleVar xs
      = (xs.map (fun x => (x - pyMeanVal xs) ^ 2)).sum / ((xs.length : ℚ) - 1) := by
  unfold sampleVar
  rw [qdiv_eq, qsum_eq, qsub_eq]
  congr 1
  congr 1
  apply List.map_congr_left
  intro x _
  rw [qmul_eq, qsub_eq]
  ring

theorem pymax_le_left (a b : ℚ) : a ≤ pymax a b := by
  unfold pymax
  split
  · exact le_of_lt (by assumption)
  · exact le_refl a

theorem pymax_le_right (a b : ℚ) : b ≤ pymax a b := by
  unfold pymax
  split
  · exact le_refl b
  · exact not_lt.1 (by assumption)

theorem pymax_choice (a b : ℚ) : pymax a b = a ∨ pymax a b = b := by
  unfold pymax
  split
  · exact Or.inr rfl
  · exact Or.inl rfl

/-! ## Well-formedness of the edge list -/

/-- No two edges share their (source, target) key: an `nx.DiGraph` cannot
hold parallel edges. -/
def edgeKeysNodup (g : Graph) : Prop :=
  (g.edges.map (fun e => e.1)).Nodup

/-- Every edge weight is a positive integer. -/
def weightsPositive (g : Graph) : Prop :=
  ∀ e ∈ g.edges, 1 ≤ e.2

/-- The invariant of claim C9. -/
def GraphInv (g : Graph) : Prop :=
  edgeKeysNodup g ∧ weightsPositive g

instance (g : Graph) : Decidable (edgeKeysNodup g) := by
  unfold edgeKeysNodup; infer_instance

instance (g : Graph) : Decidable (weightsPositive g) := by
  unfold weightsPositive; infer_instance

instance (g : Graph) : Decidable (GraphInv g) := by
  unfold GraphInv; infer_instance

theorem hasEdge_true_iff (g : Graph) (u v : Node) :
    g.hasEdge u v = true ↔ (u, v) ∈ g.edges.map (fun e => e.1) := by
  simp only [Graph.hasEdge, List.find?_isSome, List.mem_map, decide_eq_true_eq]

theorem hasEdge_false_iff (g : Graph) (u v : Node) :
    g.hasEdge u v = false ↔ (u, v) ∉ g.edges.map (fun e => e.1) := by
  rw [← Bool.not_eq_true, not_iff_not]
  exact hasEdge_true_iff g u v

/-- Updating the entries whose key is `k` does not change the key list. -/
theorem keys_map_update (l : List ((Node × Node) × Int)) (k : Node × Node) (c : Int) :
    (l.map (fun e => if e.1 = k then (e.1, e.2 + c) else e)).map (fun e => e.1)
      = l.map (fun e => e.1) := by
  induction l with
  | nil => rfl
  | cons e t ih =>
    simp only [List.map_cons, ih, List.cons.injEq, and_true]
    split <;> rfl

/-- If no entry of `l` has key `k`, updating key `k` is the identity. -/
theorem map_update_of_not_mem (l : List ((Node × Node) × Int)) (k : Node × Node) (c : Int)
    (h : k ∉ l.map (fun e => e.1)) :
    l.map (fun e => if e.1 = k then (e.1, e.2 + c) else e) = l := by
  induction l with
  | nil => rfl
  | cons e t ih =>
    simp only [List.map_cons, List.mem_cons, not_or] at h
    have hke : ¬ e.1 = k := fun hk => h.1 hk.symm
    simp only [List.map_cons, if_neg hke, ih h.2]

/-- Incrementing the (unique) entry with key `k` adds `c` to the weight sum. -/
theorem sum_map_update (l : List ((Node × Node) × Int)) (k : Node × Node) (c : Int)
    (hnd : (l.map (fun e => e.1)).Nodup) (hmem : k ∈ l.map (fun e => e.1)) :
    ((l.map (fun e => if e.1 = k then (e.1, e.2 + c) else e)).map (fun e => e.2)).sum
      = (l.map (fun e => e.2)).sum + c := by
  induction l with
  | nil => simp at hmem
  | cons e t ih =>
    simp only [List.map_cons, List.nodup_cons] at hnd
    simp only [List.map_cons, List.mem_cons] at hmem
    simp only [List.map_cons, List.sum_cons]
    by_cases hk : e.1 = k
    · rw [if_pos hk, map_update_of_not_mem t k c (hk ▸ hnd.1)]
      simp only
      ring
    · rw [if_neg hk]
      rcases hmem with hmem | hmem
      · exact absurd hmem.symm hk
      · simp only [ih hnd.2 hmem]
        ring

/-- One `build_graph` iteration preserves key uniqueness and adds the k-mer
count to the total edge weight. -/
theorem insertKmerEdge_spec (g : Graph) (kv : List Char × Int) (h : edgeKeysNodup g) :
    edgeKeysNodup (insertKmerEdge g kv)
      ∧ (insertKmerEdge g kv).sumWeights = g.sumWeights + kv.2 := by
  unfold insertKmerEdge
  set pref := kv.1.dropLast with hpref
  set suff := kv.1.drop 1 with hsuff
  have hnodes : ∀ (g' : Graph), g'.edges = g.edges →
      edgeKeysNodup g' ∧ g'.sumWeights = g.sumWeights := by
    intro g' he
    constructor
    · unfold edgeKeysNodup; rw [he]; exact h
    · unfold Graph.sumWeights; rw [he]
  simp only
  set g1 := if g.hasNode pref then g else g.addNode pref with hg1
  set g2 := if g1.hasNode suff then g1 else g1.addNode suff with hg2
  have he1 : g1.edges = g.edges := by
    rw [hg1]; split <;> rfl
  have he2 : g2.edges = g.edges := by
    rw [hg2]; split <;> simp [Graph.addNode, he1]
  have hnd2 : edgeKeysNodup g2 := (hnodes g2 he2).1
  have hsum2 : g2.sumWeights = g.sumWeights := (hnodes g2 he2).2
  by_cases hedge : g2.hasEdge pref suff
  · rw [if_pos hedge]
    have hmem : (pref, suff) ∈ g2.edges.map (fun e => e.1) :=
      (hasEdge_true_iff g2 pref suff).1 hedge
    constructor
    · unfold edgeKeysNodup Graph.incEdge
      simp only [keys_map_update]
      exact hnd2
    · unfold Graph.sumWeights Graph.incEdge
      simp only
      rw [sum_map_update g2.edges (pref, suff) kv.2 hnd2 hmem]
      unfold Graph.sumWeights at hsum2
      rw [hsum2]
  · rw [if_neg hedge]
    have hnotmem : (pref, suff) ∉ g2.edges.map (fun e => e.1) :=
      (hasEdge_false_iff g2 pref suff).1 (Bool.not_eq_true _ ▸ hedge)
    constructor
    · unfold edgeKeysNodup Graph.addEdge
      simp only [List.map_append, List.map_cons, List.map_nil]
      rw [List.nodup_append]
      refine ⟨hnd2, List.nodup_singleton _, ?_⟩
      intro a ha hb
      simp only [List.mem_singleton] at hb
      exact hnotmem (hb ▸ ha)
    · unfold Graph.sumWeights Graph.addEdge
      simp only [List.map_append, List.sum_append, List.map_cons, List.map_nil,
        List.sum_cons, List.sum_nil, add_zero]
      unfold Graph.sumWeights at hsum2
      rw [hsum2]

theorem build_graph_fold_spec (d : List (List Char × Int)) (g : Graph)
    (h : edgeKeysNodup g) :
    edgeKeysNodup (d.foldl insertKmerEdge g)
      ∧ (d.foldl insertKmerEdge g).sumWeights
          = g.sumWeights + (d.map (fun kv => kv.2)).sum := by
  induction d generalizing g with
  | nil => simpa using h
  | cons kv t ih =>
    have hstep := insertKmerEdge_spec g kv h
    have ht := ih (insertKmerEdge g kv) hstep.1
    refine ⟨ht.1, ?_⟩
    simp only [List.foldl_cons, ht.2, hstep.2, List.map_cons, List.sum_cons]
    ring

/-- **C5.** For every k-mer count mapping, the sum of the `weight`
attributes over all edges of the graph returned by `build_graph` equals the
sum of all counts in the input mapping. -/
theorem build_graph_weight_conservation (kmer_dict : List (List Char × Int)) :
    (build_graph kmer_dict).sumWeights = (kmer_dict.map (fun kv => kv.2)).sum := by
  have h := build_graph_fold_spec kmer_dict ⟨[], []⟩ (by simp [edgeKeysNodup])
  unfold build_graph
  rw [h.2]
  simp [Graph.sumWeights]

/-! ## Claim C8: `build_kmer_dict` ignores its `kmer_size` argument -/

theorem dictRealises_congr {d : List (List Char × Int)} {C C' : List Char → Int}
    (h : ∀ s, C s = C' s) (hd : dictRealises d C) : dictRealises d C' := by
  intro s; rw [← h s]; exact hd s

theorem dictGet_bump_self (d : List (List Char × Int)) (kmer : List Char) :
    dictGet (bumpKmer d kmer) kmer = some ((dictGet d kmer).getD 0 + 1) := by
  induction d with
  | nil => simp [bumpKmer, dictGet]
  | cons kv t ih =>
    by_cases h1 : kv.1 = kmer
    · simp [bumpKmer, dictGet, List.find?_cons, h1]
    · have hfind : (List.find? (fun kv => decide (kv.1 = kmer)) (kv :: t))
          = List.find? (fun kv => decide (kv.1 = kmer)) t := by
        simp [List.find?_cons, h1]
      by_cases h2 : (t.find? (fun kv => decide (kv.1 = kmer))).isSome
      · have hb : bumpKmer (kv :: t) kmer
            = (kv :: t).map (fun kv => if kv.1 = kmer then (kv.1, kv.2 + 1) else kv) := by
          simp [bumpKmer, hfind, h2]
        have hbt : bumpKmer t kmer
            = t.map (fun kv => if kv.1 = kmer then (kv.1, kv.2 + 1) else kv) := by
          simp [bumpKmer, h2]
        rw [hb]
        simp only [List.map_cons, if_neg h1]
        unfold dictGet at ih ⊢
        rw [hbt] at ih
        simp only [List.find?_cons, decide_eq_true_eq, if_neg h1, hfind] at ih ⊢
        simp only [h1, decide_False]
        exact ih
      · have hb : bumpKmer (kv :: t) kmer = (kv :: t) ++ [(kmer, 1)] := by
          simp [bumpKmer, hfind, h2]
        have hbt : bumpKmer t kmer = t ++ [(kmer, 1)] := by
          simp [bumpKmer, h2]
        rw [hb]
        unfold dictGet at ih ⊢
        rw [hbt] at ih
        simp only [List.cons_append, List.find?_cons, decide_eq_true_eq] at ih ⊢
        simp only [h1, decide_False]
        exact ih

theorem find_map_update_ne (t : List (List Char × Int)) (kmer s : List Char)
    (h : s ≠ kmer) :
    List.find? (fun kv => decide (kv.1 = s))
        (t.map (fun kv => if kv.1 = kmer then (kv.1, kv.2 + 1) else kv))
      = List.find? (fun kv => decide (kv.1 = s)) t := by
  induction t with
  | nil => rfl
  | cons kv t ih =>
    simp only [List.map_cons, List.find?_cons]
    by_cases h1 : kv.1 = kmer
    · have hs : ¬ kv.1 = s := fun hh => h (hh ▸ h1)
      simp only [if_pos h1]
      simp only [h1, decide_eq_true_eq, Ne.symm h, decide_False, hs, ih]
    · simp only [if_neg h1]
      by_cases hs : kv.1 = s
      · simp [hs]
      · simp only [hs, decide_False, ih]

theorem dictGet_bump_ne (d : List (List Char × Int)) (kmer s : List Char)
    (h : s ≠ kmer) : dictGet (bumpKmer d kmer) s = dictGet d s := by
  induction d with
  | nil => simp [bumpKmer, dictGet, Ne.symm h]
  | cons kv t ih =>
    by_cases h1 : kv.1 = kmer
    · have hb : bumpKmer (kv :: t) kmer
          = (kv :: t).map (fun kv => if kv.1 = kmer then (kv.1, kv.2 + 1) else kv) := by
        simp [bumpKmer, List.find?_cons, h1]
      rw [hb]
      simp only [List.map_cons, if_pos h1]
      unfold dictGet
      by_cases hs : kv.1 = s
      · exact absurd (h1 ▸ hs : kmer = s) (Ne.symm h)
      · simp only [List.find?_cons, decide_eq_true_eq, hs, decide_False, h1, Ne.symm h]
        rw [find_map_update_ne t kmer s h]
    · have hfind : (List.find? (fun kv => decide (kv.1 = kmer)) (kv :: t))
          = List.find? (fun kv => decide (kv.1 = kmer)) t := by
        simp [List.find?_cons, h1]
      by_cases h2 : (t.find? (fun kv => decide (kv.1 = kmer))).isSome
      · have hb : bumpKmer (kv :: t) kmer
            = (kv :: t).map (fun kv => if kv.1 = kmer then (kv.1, kv.2 + 1) else kv) := by
          simp [bumpKmer, hfind, h2]
        have hbt : bumpKmer t kmer
            = t.map (fun kv => if kv.1 = kmer then (kv.1, kv.2 + 1) else kv) := by
          simp [bumpKmer, h2]
        rw [hb]
        simp only [List.map_cons, if_neg h1]
        unfold dictGet at ih ⊢
        rw [hbt] at ih
        by_cases hs : kv.1 = s
        · simp [List.find?_cons, hs]
        · simp only [List.find?_cons, decide_eq_true_eq, hs, decide_False]
          exact ih
      · have hb : bumpKmer (kv :: t) kmer = (kv :: t) ++ [(kmer, 1)] := by
          simp [bumpKmer, hfind, h2]
        have hbt : bumpKmer t kmer = t ++ [(kmer, 1)] := by
          simp [bumpKmer, h2]
        rw [hb]
        unfold dictGet at ih ⊢
        rw [hbt] at ih
        by_cases hs : kv.1 = s
        · simp [List.find?_cons, hs]
        · simp only [List.cons_append, List.find?_cons, decide_eq_true_eq, hs,
            decide_False] at ih ⊢
          exact ih

theorem dictRealises_bump {d : List (List Char × Int)} {C : List Char → Int}
    (hd : dictRealises d C) (hpos : ∀ s, 0 ≤ C s) (kmer : List Char) :
    dictRealises (bumpKmer d kmer) (fun s => C s + if s = kmer then 1 else 0) := by
  intro s
  by_cases hs : s = kmer
  · subst hs
    rw [dictGet_bump_self d s, hd s]
    have h1 : 0 < C s + 1 := by have := hpos s; omega
    by_cases h0 : C s = 0
    · simp [h0]
    · simp only [h0, if_false, Option.getD_some, if_pos rfl]
      have : ¬ (C s + 1 = 0) := by have := hpos s; omega
      simp [this]
  · rw [dictGet_bump_ne d kmer s hs, hd s]
    simp [hs]

theorem dictRealises_fold {L : List (List Char)} :
    ∀ {d : List (List Char × Int)} {C : List Char → Int},
      dictRealises d C → (∀ s, 0 ≤ C s) →
      dictRealises (L.foldl bumpKmer d) (fun s => C s + indicatorSum L s)
        ∧ (∀ s, 0 ≤ C s + indicatorSum L s) := by
  induction L with
  | nil =>
    intro d C hd hpos
    refine ⟨dictRealises_congr (fun s => by simp [indicatorSum]) hd, ?_⟩
    intro s; simp only [indicatorSum, List.map_nil, List.sum_nil, add_zero]; exact hpos s
  | cons kmer t ih =>
    intro d C hd hpos
    have hstep := dictRealises_bump hd hpos kmer
    have hpos' : ∀ s, 0 ≤ C s + if s = kmer then 1 else 0 := by
      intro s; have := hpos s; split <;> omega
    have ht := ih hstep hpos'
    constructor
    · refine dictRealises_congr (fun s => ?_) ht.1
      simp only [indicatorSum, List.map_cons, List.sum_cons]
      ring
    · intro s
      have := ht.2 s
      simp only [indicatorSum, List.map_cons, List.sum_cons] at this ⊢
      omega

theorem indicatorSum_map_range (w : Nat → List Char) (s : List Char) (l : List Nat) :
    indicatorSum (l.map w) s = ((l.filter (fun i => decide (w i = s))).length : Int) := by
  induction l with
  | nil => rfl
  | cons i t ih =>
    simp only [indicatorSum, List.map_cons, List.sum_cons, List.filter_cons] at ih ⊢
    by_cases h : w i = s
    · simp only [h, if_pos rfl, decide_True, if_true, List.length_cons, ih]
      push_cast
      ring
    · have h2 : ¬ s = w i := fun hh => h hh.symm
      simp only [h2, if_false, h, decide_False, Bool.false_eq_true, ih, zero_add]

theorem indicatorSum_cut_kmer (read s : List Char) :
    indicatorSum (cut_kmer read 3) s = (substr3Count read s : Int) := by
  unfold cut_kmer substr3Count
  exact indicatorSum_map_range _ s _

/-- **C8.** `build_kmer_dict` returns the same mapping for any two values of
the `kmer_size` argument, and that mapping is exactly the occurrence counts
of the length-3 substrings of the reads. -/
theorem build_kmer_dict_ignores_kmer_size (reads : List (List Char)) (k1 k2 : Nat) :
    build_kmer_dict reads k1 = build_kmer_dict reads k2
      ∧ ∀ s, dictGet (build_kmer_dict reads k1) s
          = if (totalSubstr3 reads s : Int) = 0 then none
            else some ((totalSubstr3 reads s : Int)) := by
  constructor
  · rfl
  · have main : ∀ (rs : List (List Char)) (d : List (List Char × Int)) (C : List Char → Int),
        dictRealises d C → (∀ s, 0 ≤ C s) →
        dictRealises (rs.foldl (fun d read => (cut_kmer read 3).foldl bumpKmer d) d)
          (fun s => C s + ((rs.map (fun r => substr3Count r s)).sum : Int))
          ∧ (∀ s, 0 ≤ C s + ((rs.map (fun r => substr3Count r s)).sum : Int)) := by
      intro rs
      induction rs with
      | nil =>
        intro d C hd hpos
        refine ⟨dictRealises_congr (fun s => by simp) hd, fun s => by simpa using hpos s⟩
      | cons r t ih =>
        intro d C hd hpos
        have hstep := dictRealises_fold (L := cut_kmer r 3) hd hpos
        have h1 := ih _ _ hstep.1 hstep.2
        constructor
        · refine dictRealises_congr (fun s => ?_) h1.1
          simp only [indicatorSum_cut_kmer, List.map_cons, List.sum_cons]
          push_cast
          ring
        · intro s
          have := h1.2 s
          simp only [indicatorSum_cut_kmer, List.map_cons, List.sum_cons] at this ⊢
          push_cast at this ⊢
          omega
    have h0 : dictRealises ([] : List (List Char × Int)) (fun _ => 0) := by
      intro s; simp [dictGet]
    have h := (main reads [] (fun _ => 0) h0 (fun s => le_refl 0)).1
    intro s
    have hs := h s
    simp only [zero_add] at hs
    unfold build_kmer_dict
    rw [hs]
    rfl

/-! ## Claim C2: `select_best_path` with a single candidate -/

/-- **C2 (amended).** With exactly one candidate path, `select_best_path`
raises `StatisticsError` while computing the standard deviation of the
one-element weight list (`stdev` needs at least two data points): no graph
is returned, so no node is removed. -/
theorem select_best_path_single_errors (rand : Int → Int → Int) (g : Graph)
    (p : List Node) (l w : ℚ) (de ds : Bool) :
    select_best_path rand g [p] [l] [w] de ds = none := by
  unfold select_best_path sampleVariance?
  simp

/-- **C2 (counterexample).** On a concrete graph with the one candidate path
`x → y`, `select_best_path` does not return the graph unchanged (nor any
graph at all): the claimed error-free single-candidate behaviour is false. -/
theorem select_best_path_single_cx :
    select_best_path randZero gSingle [[['x'], ['y']]] [2] [1] false false = none
      ∧ select_best_path randZero gSingle [[['x'], ['y']]] [2] [1] false false
          ≠ some gSingle := by
  constructor
  · rfl
  · intro h
    simp [select_best_path, sampleVariance?] at h

/-! ## Claim C1: the selection policy of `select_best_path` -/

theorem foldl_max_ge (xs : List ℚ) : ∀ (a : ℚ),
    a ≤ xs.foldl pymax a ∧ ∀ x ∈ xs, x ≤ xs.foldl pymax a := by
  induction xs with
  | nil => intro a; exact ⟨le_refl a, by simp⟩
  | cons x t ih =>
    intro a
    have h := ih (pymax a x)
    refine ⟨le_trans (pymax_le_left a x) h.1, ?_⟩
    intro y hy
    rcases List.mem_cons.1 hy with rfl | hy
    · exact le_trans (pymax_le_right a y) h.1
    · exact h.2 y hy

theorem foldl_max_mem (xs : List ℚ) : ∀ (a : ℚ),
    xs.foldl pymax a = a ∨ xs.foldl pymax a ∈ xs := by
  induction xs with
  | nil => intro a; exact Or.inl rfl
  | cons x t ih =>
    intro a
    rcases ih (pymax a x) with h | h
    · rcases pymax_choice a x with hm | hm
      · exact Or.inl (by rw [List.foldl_cons, h, hm])
      · exact Or.inr (by rw [List.foldl_cons, h, hm]; exact List.mem_cons_self x t)
    · exact Or.inr (List.mem_cons_of_mem x h)

theorem pyMax?_spec (xs : List ℚ) (h : xs ≠ []) :
    ∃ m, pyMax? xs = some m ∧ m ∈ xs ∧ ∀ x ∈ xs, x ≤ m := by
  match xs, h with
  | x :: t, _ =>
    refine ⟨t.foldl pymax x, rfl, ?_, ?_⟩
    · rcases foldl_max_mem t x with h | h
      · rw [h]; exact List.mem_cons_self x t
      · exact List.mem_cons_of_mem x h
    · intro y hy
      rcases List.mem_cons.1 hy with rfl | hy
      · exact (foldl_max_ge t y).1
      · exact (foldl_max_ge t x).2 y hy

theorem pyIndexOf?_spec (xs : List ℚ) (v : ℚ) (h : v ∈ xs) :
    ∃ i, pyIndexOf? xs v = some i
      ∧ ∃ hi : i < xs.length, xs.get ⟨i, hi⟩ = v
        ∧ ∀ j (hj : j < xs.length), j < i → xs.get ⟨j, hj⟩ ≠ v := by
  induction xs with
  | nil => simp at h
  | cons x t ih =>
    by_cases hx : x = v
    · refine ⟨0, by simp [pyIndexOf?, hx], Nat.succ_pos _, hx, ?_⟩
      intro j hj hj0
      omega
    · rcases List.mem_cons.1 h with rfl | hm
      · exact absurd rfl hx
      · rcases ih hm with ⟨i, hfind, hi, hv, hfirst⟩
        refine ⟨i + 1, ?_, Nat.succ_lt_succ hi, ?_, ?_⟩
        · simp [pyIndexOf?, hx, hfind]
        · simpa using hv
        · intro j hj hji
          cases j with
          | zero => simpa using hx
          | succ j' =>
            have hj' : j' < t.length := by simpa using Nat.lt_of_succ_lt_succ hj
            have := hfirst j' hj' (Nat.lt_of_succ_lt_succ hji)
            simpa using this

theorem pyIndexMax_spec (xs : List ℚ) (h : xs ≠ []) :
    ∃ i, pyIndexMax xs = some i ∧ FirstMaxIdx xs i := by
  rcases pyMax?_spec xs h with ⟨m, hmax, hmem, hub⟩
  rcases pyIndexOf?_spec xs m hmem with ⟨i, hfind, hi, hv, hfirst⟩
  refine ⟨i, ?_, hi, ?_, ?_⟩
  · unfold pyIndexMax
    rw [hmax]
    exact hfind
  · intro j hj
    rw [hv]
    exact hub _ (xs.get_mem j hj)
  · intro j hj hji
    rw [hv]
    exact lt_of_le_of_ne (hub _ (xs.get_mem j hj)) (hfirst j hj hji)

theorem foldl_ite_filter {α β : Type} [DecidableEq α] (f : β → α → β) (b : α)
    (l : List α) : ∀ (acc : β),
    l.foldl (fun h p => if p ≠ b then f h p else h) acc
      = (l.filter (fun p => decide (¬ p = b))).foldl f acc := by
  induction l with
  | nil => intro acc; rfl
  | cons x t ih =>
    intro acc
    by_cases hx : x = b
    · have h1 : (if x ≠ b then f acc x else acc) = acc := if_neg (by simp [hx])
      simp only [List.foldl_cons, h1]
      rw [List.filter_cons, if_neg (by simp [hx])]
      exact ih acc
    · have h1 : (if x ≠ b then f acc x else acc) = f acc x := if_pos hx
      simp only [List.foldl_cons, h1]
      rw [List.filter_cons, if_pos (by simp [hx])]
      simp only [List.foldl_cons]
      exact ih (f acc x)

theorem pyGet_ofNat {α : Type} (xs : List α) (i : Nat) (h : i < xs.length) :
    pyGet xs (i : Int) = some (xs.get ⟨i, h⟩) := by
  unfold pyGet
  rw [if_pos (Int.natCast_nonneg i)]
  simp [List.get?_eq_get h]

theorem pyGet_int_nonneg {α : Type} (xs : List α) (r : Int) (h0 : 0 ≤ r)
    (h1 : r < (xs.length : Int)) (ht : r.toNat < xs.length) :
    pyGet xs r = some (xs.get ⟨r.toNat, ht⟩) := by
  unfold pyGet
  rw [if_pos h0]
  exact List.get?_eq_get ht

theorem remove_paths_foldl_singletons (L : List (List Node)) (de ds : Bool) :
    ∀ (g : Graph), L.foldl (fun h p => remove_paths h [p] de ds) g
      = remove_paths g L de ds := by
  induction L with
  | nil => intro g; rfl
  | cons x t ih =>
    intro g
    simp only [List.foldl_cons]
    rw [ih (remove_paths g [x] de ds)]
    rfl

/-- **C1.** For `N ≥ 2` candidate paths, `select_best_path` keeps the path
at the index chosen by the priority policy — the first index of maximum
average weight when the weight standard deviation is positive, else the
first index of maximum length when the length standard deviation is
positive, else the index drawn from the seeded random source — and removes
from the graph every candidate different from the kept path. -/
theorem select_best_path_policy (rand : Int → Int → Int) (g : Graph)
    (path_list : List (List Node)) (path_length weight_avg_list : List ℚ)
    (de ds : Bool)
    (hN : 2 ≤ path_list.length)
    (hlen : path_length.length = path_list.length)
    (hw : weight_avg_list.length = path_list.length)
    (hr : 0 ≤ rand 0 ((path_list.length : Int) - 1)
          ∧ rand 0 ((path_list.length : Int) - 1) < (path_list.length : Int)) :
    ∃ (i : Nat) (hi : i < path_list.length),
      select_best_path rand g path_list path_length weight_avg_list de ds
        = some (remove_paths g
            (path_list.filter (fun p => decide (¬ p = path_list.get ⟨i, hi⟩))) de ds)
        ∧ ((0 < sampleVar weight_avg_list ∧ FirstMaxIdx weight_avg_list i)
           ∨ (¬ 0 < sampleVar weight_avg_list ∧ 0 < sampleVar path_length
              ∧ FirstMaxIdx path_length i)
           ∨ (¬ 0 < sampleVar weight_avg_list ∧ ¬ 0 < sampleVar path_length
              ∧ (i : Int) = rand 0 ((path_list.length : Int) - 1))) := by
  have hwv : sampleVariance? weight_avg_list = some (sampleVar weight_avg_list) := by
    unfold sampleVariance?
    rw [if_neg (by omega)]
  have hlv : sampleVariance? path_length = some (sampleVar path_length) := by
    unfold sampleVariance?
    rw [if_neg (by omega)]
  by_cases hp : 0 < sampleVar weight_avg_list
  · rcases pyIndexMax_spec weight_avg_list
        (by intro hnil; rw [hnil] at hw; simp at hw; omega) with ⟨i, hidx, hfm⟩
    obtain ⟨hi, hub, hlt⟩ := hfm
    have hi' : i < path_list.length := hw ▸ hi
    refine ⟨i, hi', ?_, Or.inl ⟨hp, hi, hub, hlt⟩⟩
    unfold select_best_path
    rw [hwv, hlv]
    simp only [if_pos hp, hidx, Option.map_some', Int.ofNat_eq_coe]
    rw [pyGet_ofNat path_list i hi']
    show some (path_list.foldl
        (fun h p => if p ≠ path_list.get ⟨i, hi'⟩ then remove_paths h [p] de ds else h) g) = _
    rw [foldl_ite_filter, remove_paths_foldl_singletons]
  · by_cases hq : 0 < sampleVar path_length
    · rcases pyIndexMax_spec path_length
          (by intro hnil; rw [hnil] at hlen; simp at hlen; omega) with ⟨i, hidx, hfm⟩
      obtain ⟨hi, hub, hlt⟩ := hfm
      have hi' : i < path_list.length := hlen ▸ hi
      refine ⟨i, hi', ?_, Or.inr (Or.inl ⟨hp, hq, hi, hub, hlt⟩)⟩
      unfold select_best_path
      rw [hwv, hlv]
      simp only [if_neg hp, if_pos hq, hidx, Option.map_some', Int.ofNat_eq_coe]
      rw [pyGet_ofNat path_list i hi']
      show some (path_list.foldl
          (fun h p => if p ≠ path_list.get ⟨i, hi'⟩ then remove_paths h [p] de ds else h) g) = _
      rw [foldl_ite_filter, remove_paths_foldl_singletons]
    · set r := rand 0 ((path_list.length : Int) - 1) with hrdef
      have ht : r.toNat < path_list.length := by omega
      refine ⟨r.toNat, ht, ?_, Or.inr (Or.inr ⟨hp, hq, Int.toNat_of_nonneg hr.1⟩)⟩
      unfold select_best_path
      rw [hwv, hlv]
      simp only [if_neg hp, if_neg hq]
      rw [← hrdef, pyGet_int_nonneg path_list r hr.1 hr.2 ht]
      show some (path_list.foldl
          (fun h p => if p ≠ path_list.get ⟨r.toNat, ht⟩ then remove_paths h [p] de ds else h) g) = _
      rw [foldl_ite_filter, remove_paths_foldl_singletons]

/-- Witness for C1 at a concrete input: two candidate paths whose average
weights differ, so the first maximum-weight path (index 0) is kept. -/
theorem select_best_path_policy_witness :
    ∃ (i : Nat) (hi : i < ([[['a'], ['b']], [['a'], ['c']]] : List (List Node)).length),
      select_best_path randZero gChain [[['a'], ['b']], [['a'], ['c']]] [2, 2] [5, 1]
          false false
        = some (remove_paths gChain
            (([[['a'], ['b']], [['a'], ['c']]] : List (List Node)).filter
              (fun p => decide (¬ p = ([[['a'], ['b']], [['a'], ['c']]] : List (List Node)).get ⟨i, hi⟩)))
            false false)
        ∧ ((0 < sampleVar [5, 1] ∧ FirstMaxIdx [5, 1] i)
           ∨ (¬ 0 < sampleVar [5, 1] ∧ 0 < sampleVar [2, 2] ∧ FirstMaxIdx [2, 2] i)
           ∨ (¬ 0 < sampleVar [5, 1] ∧ ¬ 0 < sampleVar [2, 2]
              ∧ (i : Int) = randZero 0 ((([[['a'], ['b']], [['a'], ['c']]] : List (List Node)).length : Int) - 1))) :=
  select_best_path_policy randZero gChain [[['a'], ['b']], [['a'], ['c']]] [2, 2] [5, 1]
    false false (by decide) (by decide) (by decide) (by decide)

/-! ## Claim C9: the no-parallel-edges / positive-weights invariant -/

theorem graphInv_removeNode {g : Graph} (h : GraphInv g) (n : Node) :
    GraphInv (g.removeNode n) := by
  obtain ⟨h1, h2⟩ := h
  constructor
  · exact List.Nodup.sublist ((List.filter_sublist _).map _) h1
  · intro e he
    exact h2 e (List.mem_of_mem_filter he)

theorem graphInv_removeNodesFrom {g : Graph} (h : GraphInv g) (l : List Node) :
    GraphInv (g.removeNodesFrom l) := by
  induction l generalizing g with
  | nil => exact h
  | cons n t ih => exact ih (graphInv_removeNode h n)

theorem graphInv_remove_paths {g : Graph} (h : GraphInv g)
    (pl : List (List Node)) (de ds : Bool) : GraphInv (remove_paths g pl de ds) := by
  induction pl generalizing g with
  | nil => exact h
  | cons p t ih => exact ih (graphInv_removeNodesFrom h (pathSlice p de ds))

/-- Whenever `select_best_path` returns a graph, that graph is the input
with the candidates differing from some kept path removed. -/
theorem select_best_path_shape (rand : Int → Int → Int) (g : Graph)
    (pl : List (List Node)) (plen wavg : List ℚ) (de ds : Bool) (g' : Graph)
    (h : select_best_path rand g pl plen wavg de ds = some g') :
    ∃ best, g' = remove_paths g (pl.filter (fun p => decide (¬ p = best))) de ds := by
  unfold select_best_path at h
  cases hA : sampleVariance? wavg <;> rw [hA] at h
  · simp at h
  cases hB : sampleVariance? plen <;> rw [hB] at h
  · simp at h
  simp only [] at h
  split at h
  next => simp at h
  next i heq =>
    cases hG : pyGet pl i <;> rw [hG] at h
    · simp at h
    case some best =>
      refine ⟨best, ?_⟩
      simp only [Option.some.injEq] at h
      rw [← h, foldl_ite_filter, remove_paths_foldl_singletons]

theorem graphInv_select_best_path {rand : Int → Int → Int} {g : Graph}
    {pl : List (List Node)} {plen wavg : List ℚ} {de ds : Bool} {g' : Graph}
    (hInv : GraphInv g)
    (h : select_best_path rand g pl plen wavg de ds = some g') : GraphInv g' := by
  rcases select_best_path_shape rand g pl plen wavg de ds g' h with ⟨best, rfl⟩
  exact graphInv_remove_paths hInv _ de ds

theorem graphInv_solve_bubble {rand : Int → Int → Int} {g : Graph}
    {a d : Node} {g' : Graph} (hInv : GraphInv g)
    (h : solve_bubble rand g a d = some g') : GraphInv g' := by
  unfold solve_bubble at h
  simp only [] at h
  split at h
  · simp at h
  · exact graphInv_select_best_path hInv h

theorem graphInv_simplify_bubbles {rand : Int → Int → Int} :
    ∀ {fuel : Nat} {g g' : Graph}, GraphInv g →
      simplify_bubbles rand fuel g = some g' → GraphInv g' := by
  intro fuel
  induction fuel with
  | zero => intro g g' _ h; simp [simplify_bubbles] at h
  | succ n ih =>
    intro g g' hInv h
    unfold simplify_bubbles at h
    cases hF : findBubble g <;> rw [hF] at h
    · simp only [Option.some.injEq] at h
      exact h ▸ hInv
    case some p =>
      obtain ⟨anc, nd⟩ := p
      simp only [] at h
      cases hS : solve_bubble rand g anc nd <;> rw [hS] at h
      · simp at h
      case some g1 =>
        exact ih (graphInv_solve_bubble hInv hS) h

theorem graphInv_solve_entry_tips {rand : Int → Int → Int} {g : Graph}
    {starts : List Node} {g' : Graph} (hInv : GraphInv g)
    (h : solve_entry_tips rand g starts = some g') : GraphInv g' := by
  unfold solve_entry_tips at h
  simp only [] at h
  split at h
  · simp only [Option.some.injEq] at h
    exact h ▸ hInv
  · split at h
    · simp at h
    · exact graphInv_select_best_path hInv h

theorem graphInv_solve_out_tips {rand : Int → Int → Int} {g : Graph}
    {ends : List Node} {g' : Graph} (hInv : GraphInv g)
    (h : solve_out_tips rand g ends = some g') : GraphInv g' := by
  unfold solve_out_tips at h
  simp only [] at h
  split at h
  · simp only [Option.some.injEq] at h
    exact h ▸ hInv
  · split at h
    · simp at h
    · exact graphInv_select_best_path hInv h

theorem insertKmerEdge_inv (g : Graph) (kv : List Char × Int)
    (h : GraphInv g) (hc : 1 ≤ kv.2) : GraphInv (insertKmerEdge g kv) := by
  obtain ⟨hnd, hpos⟩ := h
  unfold insertKmerEdge
  set pref := kv.1.dropLast with hpref
  set suff := kv.1.drop 1 with hsuff
  simp only []
  set g1 := if g.hasNode pref then g else g.addNode pref with hg1
  set g2 := if g1.hasNode suff then g1 else g1.addNode suff with hg2
  have he1 : g1.edges = g.edges := by
    rw [hg1]; split <;> rfl
  have he2 : g2.edges = g.edges := by
    rw [hg2]; split <;> simp [Graph.addNode, he1]
  have hnd2 : edgeKeysNodup g2 := by
    unfold edgeKeysNodup; rw [he2]; exact hnd
  have hpos2 : weightsPositive g2 := by
    unfold weightsPositive; rw [he2]; exact hpos
  by_cases hedge : g2.hasEdge pref suff
  · rw [if_pos hedge]
    constructor
    · unfold edgeKeysNodup Graph.incEdge
      simp only [keys_map_update]
      exact hnd2
    · intro e he
      unfold Graph.incEdge at he
      simp only [List.mem_map] at he
      rcases he with ⟨e0, he0, hupd⟩
      have h0 := hpos2 e0 he0
      by_cases hk : e0.1 = (pref, suff)
      · rw [if_pos hk] at hupd
        rw [← hupd]
        simp only
        omega
      · rw [if_neg hk] at hupd
        rw [← hupd]
        exact h0
  · rw [if_neg hedge]
    have hnotmem : (pref, suff) ∉ g2.edges.map (fun e => e.1) :=
      (hasEdge_false_iff g2 pref suff).1 (Bool.not_eq_true _ ▸ hedge)
    constructor
    · unfold edgeKeysNodup Graph.addEdge
      simp only [List.map_append, List.map_cons, List.map_nil]
      rw [List.nodup_append]
      refine ⟨hnd2, List.nodup_singleton _, ?_⟩
      intro a ha hb
      simp only [List.mem_singleton] at hb
      exact hnotmem (hb ▸ ha)
    · intro e he
      unfold Graph.addEdge at he
      simp only [List.mem_append, List.mem_singleton] at he
      rcases he with he | he
      · exact hpos2 e he
      · rw [he]; exact hc

theorem build_graph_inv (d : List (List Char × Int)) (hd : ∀ kv ∈ d, 1 ≤ kv.2) :
    GraphInv (build_graph d) := by
  have main : ∀ (l : List (List Char × Int)) (g : Graph), GraphInv g →
      (∀ kv ∈ l, 1 ≤ kv.2) → GraphInv (l.foldl insertKmerEdge g) := by
    intro l
    induction l with
    | nil => intro g hg _; exact hg
    | cons kv t ih =>
      intro g hg hl
      exact ih (insertKmerEdge g kv) (insertKmerEdge_inv g kv hg (hl kv (by simp)))
        (fun x hx => hl x (List.mem_cons_of_mem kv hx))
  exact main d ⟨[], []⟩ ⟨by simp [edgeKeysNodup], by simp [weightsPositive]⟩ hd

/-- **C9.** For counts all ≥ 1, `build_graph` establishes — and
`remove_paths`, `select_best_path`, `simplify_bubbles`, `solve_entry_tips`
and `solve_out_tips` preserve — the invariant that at most one edge joins
any ordered node pair and every edge weight is a positive integer. -/
theorem debruijn_invariant_preserved :
    (∀ (d : List (List Char × Int)), (∀ kv ∈ d, 1 ≤ kv.2) → GraphInv (build_graph d))
      ∧ (∀ (g : Graph) (pl : List (List Node)) (de ds : Bool),
          GraphInv g → GraphInv (remove_paths g pl de ds))
      ∧ (∀ (rand : Int → Int → Int) (g : Graph) (pl : List (List Node))
           (plen wavg : List ℚ) (de ds : Bool) (g' : Graph), GraphInv g →
           select_best_path rand g pl plen wavg de ds = some g' → GraphInv g')
      ∧ (∀ (rand : Int → Int → Int) (fuel : Nat) (g g' : Graph), GraphInv g →
           simplify_bubbles rand fuel g = some g' → GraphInv g')
      ∧ (∀ (rand : Int → Int → Int) (g : Graph) (starts : List Node) (g' : Graph),
           GraphInv g → solve_entry_tips rand g starts = some g' → GraphInv g')
      ∧ (∀ (rand : Int → Int → Int) (g : Graph) (ends : List Node) (g' : Graph),
           GraphInv g → solve_out_tips rand g ends = some g' → GraphInv g') :=
  ⟨build_graph_inv,
   fun _ pl de ds hg => graphInv_remove_paths hg pl de ds,
   fun _ _ _ _ _ _ _ _ hg h => graphInv_select_best_path hg h,
   fun _ _ _ _ hg h => graphInv_simplify_bubbles hg h,
   fun _ _ _ _ hg h => graphInv_solve_entry_tips hg h,
   fun _ _ _ _ hg h => graphInv_solve_out_tips hg h⟩

/-- Witness for C9: every component of the invariant theorem applied at a
concrete graph, with all hypotheses discharged by evaluation. -/
theorem debruijn_invariant_preserved_witness :
    GraphInv (build_graph [(['a', 'b'], 2), (['b', 'c'], 1)])
      ∧ GraphInv (remove_paths gChain [[['a'], ['b'], ['c']]] false false)
      ∧ GraphInv gChain ∧ GraphInv gChain ∧ GraphInv gChain ∧ GraphInv gChain :=
  ⟨debruijn_invariant_preserved.1 [(['a', 'b'], 2), (['b', 'c'], 1)] (by decide),
   debruijn_invariant_preserved.2.1 gChain [[['a'], ['b'], ['c']]] false false (by decide),
   debruijn_invariant_preserved.2.2.1 randZero gChain [[['a'], ['b']], [['a'], ['c']]]
     [2, 2] [5, 1] false false gChain (by decide) (by decide),
   debruijn_invariant_preserved.2.2.2.1 randZero 1 gChain gChain (by decide) (by decide),
   debruijn_invariant_preserved.2.2.2.2.1 randZero gChain [['a']] gChain (by decide) (by decide),
   debruijn_invariant_preserved.2.2.2.2.2 randZero gChain [['c']] gChain (by decide) (by decide)⟩

/-! ## Claim C6: a bubble-free graph is returned unchanged -/

theorem predecessors_nodup (g : Graph) (h : edgeKeysNodup g) (n : Node) :
    (g.predecessors n).Nodup := by
  unfold Graph.predecessors
  have hsub : ((g.edges.filter (fun e => decide (e.1.2 = n))).map (fun e => e.1)).Nodup :=
    List.Nodup.sublist ((List.filter_sublist _).map _) h
  have hinj := List.inj_on_of_nodup_map hsub
  have hent : (g.edges.filter (fun e => decide (e.1.2 = n))).Nodup :=
    List.Nodup.of_map _ hsub
  refine List.Nodup.map_on ?_ hent
  intro x hx y hy hxy
  have hxn := List.of_mem_filter hx
  have hyn := List.of_mem_filter hy
  simp only [decide_eq_true_eq] at hxn hyn
  exact hinj hx hy (Prod.ext hxy (hxn.trans hyn.symm))

theorem indexPairs_distinct : ∀ {l : List Node}, l.Nodup →
    ∀ {p : Node × Node}, p ∈ indexPairs l → p.1 ∈ l ∧ p.2 ∈ l ∧ p.1 ≠ p.2 := by
  intro l
  induction l with
  | nil => intro _ p hp; simp [indexPairs] at hp
  | cons x t ih =>
    intro hnd p hp
    rw [List.nodup_cons] at hnd
    unfold indexPairs at hp
    rcases List.mem_append.1 hp with hp | hp
    · rcases List.mem_map.1 hp with ⟨y, hy, rfl⟩
      exact ⟨List.mem_cons_self x t, List.mem_cons_of_mem x hy,
        fun hh => hnd.1 ((show x = y from hh).symm ▸ hy)⟩
    · rcases ih hnd.2 hp with ⟨h1, h2, h3⟩
      exact ⟨List.mem_cons_of_mem x h1, List.mem_cons_of_mem x h2, h3⟩

theorem findBubble_eq_none (g : Graph) (hwf : edgeKeysNodup g)
    (hnb : ∀ n ∈ g.nodes, ∀ p ∈ g.predecessors n, ∀ q ∈ g.predecessors n,
      p ≠ q → lca g p q = none) :
    findBubble g = none := by
  unfold findBubble
  rw [List.findSome?_eq_none]
  intro n hn
  simp only []
  split
  · rw [List.findSome?_eq_none]
    intro c hc
    have h3 := indexPairs_distinct (predecessors_nodup g hwf n) hc
    rw [hnb n hn c.1 h3.1 c.2 h3.2.1 h3.2.2]
    rfl
  · rfl

/-- **C6.** On a graph in which no node with more than one predecessor has
a pair of distinct predecessors possessing a lowest common ancestor,
`simplify_bubbles` (run with any positive recursion budget) returns the
input graph itself: same nodes, same edges, same weights. -/
theorem simplify_bubbles_no_bubble_id (rand : Int → Int → Int) (fuel : Nat)
    (g : Graph) (hwf : edgeKeysNodup g)
    (hnb : ∀ n ∈ g.nodes, ∀ p ∈ g.predecessors n, ∀ q ∈ g.predecessors n,
      p ≠ q → lca g p q = none) :
    simplify_bubbles rand (fuel + 1) g = some g := by
  unfold simplify_bubbles
  rw [findBubble_eq_none g hwf hnb]

/-- Witness for C6: the chain `a → b → c` has no bubble, and
`simplify_bubbles` returns it unchanged. -/
theorem simplify_bubbles_no_bubble_id_witness :
    simplify_bubbles randZero 1 gChain = some gChain :=
  simplify_bubbles_no_bubble_id randZero 0 gChain (by decide) (by decide)

/-! ## Claim C4: termination of `simplify_bubbles` -/

/-- **C4 (counterexample).** The graph `gLoop` (`a → p → n`, `a → n`, an
acyclic bubble whose two-edge branch has the larger average weight) makes
`simplify_bubbles` recurse forever: resolving the bubble removes nothing
— the losing path `a → n` has no interior node — so no recursion depth
ever reaches a bubble-free scan. -/
theorem simplify_bubbles_diverges_cx :
    isAcyclicB gLoop = true
      ∧ ¬ ∃ fuel : Nat, (simplify_bubbles randZero fuel gLoop).isSome := by
  constructor
  · decide
  · rintro ⟨fuel, hf⟩
    have key : ∀ f : Nat, simplify_bubbles randZero f gLoop = none := by
      intro f
      induction f with
      | zero => rfl
      | succ n ih =>
        have hone : simplify_bubbles randZero (n + 1) gLoop
            = simplify_bubbles randZero n gLoop := rfl
        rw [hone]
        exact ih
    rw [key fuel] at hf
    simp at hf

/-- **C4 (amended).** `simplify_bubbles` terminates when every bubble
resolution it can reach succeeds and strictly decreases the node count; a
recursion budget of one more than the node count then suffices. -/
theorem simplify_bubbles_terminates_of_progress (rand : Int → Int → Int) (g : Graph)
    (hprog : ∀ g₁, Relation.ReflTransGen (bubbleStep rand) g g₁ →
      ∀ anc nd, findBubble g₁ = some (anc, nd) →
        ∃ g₂, solve_bubble rand g₁ anc nd = some g₂
          ∧ g₂.nodes.length < g₁.nodes.length) :
    ∃ fuel : Nat, (simplify_bubbles rand fuel g).isSome := by
  suffices main : ∀ (k : Nat) (h : Graph), h.nodes.length ≤ k →
      (∀ g₁, Relation.ReflTransGen (bubbleStep rand) h g₁ →
        ∀ anc nd, findBubble g₁ = some (anc, nd) →
          ∃ g₂, solve_bubble rand g₁ anc nd = some g₂
            ∧ g₂.nodes.length < g₁.nodes.length) →
      (simplify_bubbles rand (k + 1) h).isSome by
    exact ⟨g.nodes.length + 1, main g.nodes.length g (le_refl _) hprog⟩
  intro k
  induction k with
  | zero =>
    intro h hlen hp
    unfold simplify_bubbles
    cases hF : findBubble h with
    | none => simp
    | some p =>
      rcases hp h Relation.ReflTransGen.refl p.1 p.2 (by simp [hF]) with ⟨g₂, _, hdec⟩
      omega
  | succ n ih =>
    intro h hlen hp
    cases hF : findBubble h with
    | none =>
      unfold simplify_bubbles
      rw [hF]
      simp
    | some p =>
      rcases hp h Relation.ReflTransGen.refl p.1 p.2 (by simp [hF]) with ⟨g₂, hS, hdec⟩
      have hstep : bubbleStep rand h g₂ := ⟨p.1, p.2, by simp [hF], hS⟩
      have hmain := ih g₂ (by omega)
        (fun g₁ hchain => hp g₁ (Relation.ReflTransGen.head hstep hchain))
      have hred : simplify_bubbles rand (n + 1 + 1) h = simplify_bubbles rand (n + 1) g₂ := by
        unfold simplify_bubbles
        rw [hF]
        simp only []
        rw [hS]
        exact rfl
      rw [hred]
      exact hmain

/-- Witness for the amended C4: on the bubble-free chain the progress
hypothesis holds vacuously and `simplify_bubbles` terminates. -/
theorem simplify_bubbles_terminates_of_progress_witness :
    ∃ fuel : Nat, (simplify_bubbles randZero fuel gChain).isSome := by
  refine simplify_bubbles_terminates_of_progress randZero gChain ?_
  intro g₁ hchain anc nd hF
  have hnone : findBubble gChain = none := by decide
  rcases Relation.ReflTransGen.cases_head hchain with h | ⟨c, hstep, -⟩
  · rw [← h] at hF
    rw [hnone] at hF
    cases hF
  · rcases hstep with ⟨a, b, hFc, -⟩
    rw [hnone] at hFc
    cases hFc

/-! ## Claim C3: `path_average_weight` and the induced subgraph -/

theorem find?_entry_eq (l : List ((Node × Node) × Int))
    (hnd : (l.map (fun e => e.1)).Nodup) (e : (Node × Node) × Int) (he : e ∈ l) :
    l.find? (fun x => decide (x.1 = e.1)) = some e := by
  induction l with
  | nil => cases he
  | cons h t ih =>
    simp only [List.map_cons, List.nodup_cons] at hnd
    rcases List.mem_cons.1 he with rfl | het
    · simp [List.find?_cons]
    · by_cases hk : h.1 = e.1
      · exact absurd (List.mem_map.2 ⟨e, het, hk.symm⟩) hnd.1
      · simp only [List.find?_cons, hk, decide_False]
        exact ih hnd.2 het

theorem weight?_eq_of_mem (g : Graph) (hnd : edgeKeysNodup g)
    (e : (Node × Node) × Int) (he : e ∈ g.edges) :
    g.weight? e.1.1 e.1.2 = some e.2 := by
  unfold Graph.weight?
  have hpos : (fun x : (Node × Node) × Int => decide (x.1 = (e.1.1, e.1.2)))
      = (fun x : (Node × Node) × Int => decide (x.1 = e.1)) := by
    simp only [Prod.mk.eta]
  rw [hpos, find?_entry_eq g.edges hnd e he]
  rfl

theorem chain'_rel_of_mem_zip {R : Node → Node → Prop} :
    ∀ {p : List Node}, List.Chain' R p →
      ∀ {u v : Node}, (u, v) ∈ p.zip p.tail → R u v := by
  intro p
  induction p with
  | nil => intro _ u v h; cases h
  | cons x t ih =>
    intro hc u v hm
    cases t with
    | nil => cases hm
    | cons y s =>
      rw [show (x :: y :: s).tail = y :: s from rfl, List.zip_cons_cons] at hm
      rcases List.mem_cons.1 hm with heq | hm'
      · obtain ⟨h1, h2⟩ := Prod.mk.injEq u v x y ▸ heq
        subst h1; subst h2
        exact (List.chain'_cons.1 hc).1
      · exact ih (List.chain'_cons.1 hc).2 hm'

theorem zip_tail_nodup : ∀ {p : List Node}, p.Nodup → (p.zip p.tail).Nodup := by
  intro p
  induction p with
  | nil => intro _; simp
  | cons x t ih =>
    intro hnd
    cases t with
    | nil => simp
    | cons y s =>
      rw [show (x :: y :: s).tail = y :: s from rfl, List.zip_cons_cons, List.nodup_cons]
      have hnd' := List.nodup_cons.1 hnd
      refine ⟨?_, ?_⟩
      · intro hmem
        exact hnd'.1 (List.of_mem_zip hmem).1
      · exact ih hnd'.2

theorem mapM_eq_some_map {α β : Type} (f : α → Option β) (h : α → β) :
    ∀ (l : List α), (∀ x ∈ l, f x = some (h x)) → l.mapM f = some (l.map h) := by
  intro l
  induction l with
  | nil => intro _; rfl
  | cons x t ih =>
    intro hl
    rw [List.mapM_cons, hl x (List.mem_cons_self x t),
      ih (fun y hy => hl y (List.mem_cons_of_mem x hy))]
    rfl

theorem pyMean?_perm {xs ys : List ℚ} (h : xs.Perm ys) : pyMean? xs = pyMean? ys := by
  unfold pyMean?
  rw [h.length_eq, qsum_eq, qsum_eq, h.sum_eq]

/-- **C3 (counterexample).** On the graph `a → b (1), b → c (1), a → c (10)`
the list `[a, b, c]` is a simple path with two edges, yet
`path_average_weight` returns 4 — the chord `a → c` contributes — while the
mean over exactly the consecutive edges is 1. -/
theorem path_average_weight_chord_cx :
    List.Chain' (fun a b => gChord.hasEdge a b = true) [['a'], ['b'], ['c']]
      ∧ ([['a'], ['b'], ['c']] : List Node).Nodup
      ∧ path_average_weight gChord [['a'], ['b'], ['c']] = some 4
      ∧ consecMeanSpec gChord [['a'], ['b'], ['c']] = some 1
      ∧ (4 : ℚ) ≠ 1 := by
  refine ⟨?_, by decide, by decide, by decide, by decide⟩
  exact List.chain'_cons.2 ⟨by decide, List.chain'_cons.2 ⟨by decide, List.chain'_singleton _⟩⟩

/-- **C3 (amended).** `path_average_weight` averages the weights of all
edges of the subgraph induced by the path's nodes; when every induced edge
joins consecutive nodes of the path, this equals the spec's mean over
exactly the consecutive edges. -/
theorem path_average_weight_consecutive (g : Graph) (p : List Node)
    (hwf : edgeKeysNodup g)
    (hchain : List.Chain' (fun a b => g.hasEdge a b = true) p)
    (hnd : p.Nodup) (hlen : 2 ≤ p.length)
    (hind : ∀ e ∈ subgraphEdges g p, (e.1.1, e.1.2) ∈ p.zip p.tail) :
    ∃ m, path_average_weight g p = some m ∧ consecMeanSpec g p = some m := by
  have hwE : ∀ e ∈ subgraphEdges g p, g.weight? e.1.1 e.1.2 = some e.2 :=
    fun e he => weight?_eq_of_mem g hwf e (List.mem_of_mem_filter he)
  have hKE : ∀ k ∈ p.zip p.tail, ∃ e ∈ subgraphEdges g p, e.1 = k := by
    intro k hk
    obtain ⟨u, v⟩ := k
    have hR : g.hasEdge u v = true := chain'_rel_of_mem_zip hchain hk
    rcases List.mem_map.1 ((hasEdge_true_iff g u v).1 hR) with ⟨e, he, hkey⟩
    refine ⟨e, ?_, hkey⟩
    have hu : u ∈ p := (List.of_mem_zip hk).1
    have hv : v ∈ p := List.mem_of_mem_tail (List.of_mem_zip hk).2
    refine List.mem_filter.2 ⟨he, ?_⟩
    have h1 : e.1.1 = u := by rw [hkey]
    have h2 : e.1.2 = v := by rw [hkey]
    simp [h1, h2, hu, hv]
  have hEK : ∀ e ∈ subgraphEdges g p, e.1 ∈ p.zip p.tail := by
    intro e he
    have := hind e he
    simpa [Prod.mk.eta] using this
  have hndEkeys : ((subgraphEdges g p).map (fun e => e.1)).Nodup :=
    List.Nodup.sublist ((List.filter_sublist _).map _) hwf
  have hndK : (p.zip p.tail).Nodup := zip_tail_nodup hnd
  have hperm : ((subgraphEdges g p).map (fun e => e.1)).Perm (p.zip p.tail) := by
    rw [List.perm_ext_iff_of_nodup hndEkeys hndK]
    intro k
    constructor
    · intro hk
      rcases List.mem_map.1 hk with ⟨e, he, rfl⟩
      exact hEK e he
    · intro hk
      rcases hKE k hk with ⟨e, he, hkey⟩
      exact List.mem_map.2 ⟨e, he, hkey⟩
  have hmapE : (subgraphEdges g p).map (fun e => (e.2 : ℚ))
      = ((subgraphEdges g p).map (fun e => e.1)).map
          (fun k => (((g.weight? k.1 k.2).getD 0 : Int) : ℚ)) := by
    rw [List.map_map]
    apply List.map_congr_left
    intro e he
    simp [Function.comp, hwE e he]
  have hws : (p.zip p.tail).mapM (fun uv => g.weight? uv.1 uv.2)
      = some ((p.zip p.tail).map (fun k => (g.weight? k.1 k.2).getD 0)) := by
    apply mapM_eq_some_map
    intro k hk
    rcases hKE k hk with ⟨e, he, hkey⟩
    rw [← hkey, hwE e he]
    rfl
  have hENe : subgraphEdges g p ≠ [] := by
    have hkmem : ∃ k, k ∈ p.zip p.tail := by
      match p, hlen with
      | x :: y :: t, _ =>
        exact ⟨(x, y), by
          rw [show (x :: y :: t).tail = y :: t from rfl, List.zip_cons_cons]
          exact List.mem_cons_self _ _⟩
    rcases hkmem with ⟨k, hk⟩
    rcases hKE k hk with ⟨e, he, -⟩
    intro hEnil
    rw [hEnil] at he
    cases he
  have hmean : pyMean? ((subgraphEdges g p).map (fun e => (e.2 : ℚ)))
      = pyMean? (((p.zip p.tail).map (fun k => (g.weight? k.1 k.2).getD 0)).map
          (fun w : Int => (w : ℚ))) := by
    rw [hmapE,
      pyMean?_perm (hperm.map (fun k => (((g.weight? k.1 k.2).getD 0 : Int) : ℚ)))]
    congr 1
    rw [List.map_map]
    rfl
  have hlenE : ¬ ((subgraphEdges g p).map (fun e => (e.2 : ℚ))).length = 0 := by
    simp only [List.length_map, List.length_eq_zero]
    exact hENe
  unfold path_average_weight consecMeanSpec
  rw [hws]
  refine ⟨qdiv (qsum ((subgraphEdges g p).map (fun e => (e.2 : ℚ))))
      ((((subgraphEdges g p).map (fun e => (e.2 : ℚ))).length : ℚ)), ?_, ?_⟩
  · unfold pyMean?
    rw [if_neg hlenE]
  · show pyMean? _ = _
    rw [← hmean]
    unfold pyMean?
    rw [if_neg hlenE]

/-- Witness for the amended C3: on the chain `a → b → c` (no chord) the
induced subgraph has exactly the consecutive edges, and both means agree. -/
theorem path_average_weight_consecutive_witness :
    ∃ m, path_average_weight gChain [['a'], ['b'], ['c']] = some m
      ∧ consecMeanSpec gChain [['a'], ['b'], ['c']] = some m :=
  path_average_weight_consecutive gChain [['a'], ['b'], ['c']] (by decide)
    (List.chain'_cons.2 ⟨by decide, List.chain'_cons.2 ⟨by decide, List.chain'_singleton _⟩⟩)
    (by decide) (by decide) (by decide)

/-! ## Claim C7: `get_contigs` -/

theorem mem_successors_hasEdge (g : Graph) (n s : Node) (h : s ∈ g.successors n) :
    g.hasEdge n s = true ∧ s ∈ g.edges.map (fun e => e.1.2) := by
  unfold Graph.successors at h
  rcases List.mem_map.1 h with ⟨e, he, rfl⟩
  have hsrc := List.of_mem_filter he
  simp only [decide_eq_true_eq] at hsrc
  constructor
  · apply (hasEdge_true_iff g n e.1.2).2
    apply List.mem_map.2
    refine ⟨e, List.mem_of_mem_filter he, ?_⟩
    exact Prod.ext hsrc rfl
  · exact List.mem_map.2 ⟨e, List.mem_of_mem_filter he, rfl⟩

theorem allSimplePathsAux_sound (g : Graph) (target : Node) :
    ∀ (fuel : Nat) (current : Node) (vr : List Node) (q : List Node),
      q ∈ allSimplePathsAux g target fuel current vr →
      vr.head? = some current → vr.Nodup → target ∉ vr →
      List.Chain' (flip (fun a b => g.hasEdge a b = true)) vr →
      ∃ w : List Node, q = w.reverse ∧ w.head? = some target ∧ w.Nodup
        ∧ List.Chain' (flip (fun a b => g.hasEdge a b = true)) w
        ∧ w.getLast? = vr.getLast?
        ∧ vr.length < w.length
        ∧ ∀ x ∈ w, x ∈ vr ∨ x ∈ g.edges.map (fun e => e.1.2) := by
  intro fuel
  induction fuel with
  | zero =>
    intro current vr q hq
    cases hq
  | succ n ih =>
    intro current vr q hq hhead hnd htgt hchain
    have hvrne : vr ≠ [] := by
      intro h; rw [h] at hhead; cases hhead
    rw [allSimplePathsAux] at hq
    rcases List.mem_flatMap.1 hq with ⟨s, hs, hqin⟩
    have hedge := mem_successors_hasEdge g current s hs
    by_cases hst : s = target
    · rw [if_pos hst] at hqin
      rcases List.mem_singleton.1 hqin with rfl
      refine ⟨s :: vr, rfl, by simp [hst], ?_, ?_, ?_, by simp, ?_⟩
      · exact List.nodup_cons.2 ⟨hst ▸ htgt, hnd⟩
      · refine List.chain'_cons'.2 ⟨?_, hchain⟩
        intro b hb
        rw [hhead] at hb
        rcases Option.mem_some_iff.1 hb with rfl
        exact hedge.1
      · match vr, hvrne with
        | x :: vr', _ => exact List.getLast?_cons_cons
      · intro x hx
        rcases List.mem_cons.1 hx with rfl | hx
        · exact Or.inr hedge.2
        · exact Or.inl hx
    · rw [if_neg hst] at hqin
      by_cases hsv : s ∈ vr
      · rw [if_pos hsv] at hqin
        cases hqin
      · rw [if_neg hsv] at hqin
        have htgt' : target ∉ s :: vr := by
          intro h
          rcases List.mem_cons.1 h with h | h
          · exact hst h.symm
          · exact htgt h
        have hchain' : List.Chain' (flip (fun a b => g.hasEdge a b = true)) (s :: vr) := by
          refine List.chain'_cons'.2 ⟨?_, hchain⟩
          intro b hb
          rw [hhead] at hb
          rcases Option.mem_some_iff.1 hb with rfl
          exact hedge.1
        rcases ih s (s :: vr) q hqin rfl (List.nodup_cons.2 ⟨hsv, hnd⟩) htgt' hchain'
          with ⟨w, rfl, hwh, hwnd, hwch, hwl, hwlen, hwmem⟩
        refine ⟨w, rfl, hwh, hwnd, hwch, ?_, ?_, ?_⟩
        · rw [hwl]
          match vr, hvrne with
          | x :: vr', _ => exact List.getLast?_cons_cons
        · have : vr.length < (s :: vr).length := by simp
          omega
        · intro x hx
          rcases hwmem x hx with hx' | hx'
          · rcases List.mem_cons.1 hx' with rfl | hx''
            · exact Or.inr hedge.2
            · exact Or.inl hx''
          · exact Or.inr hx'

theorem allSimplePaths_sound (g : Graph) (u v : Node) (q : List Node)
    (hq : q ∈ allSimplePaths g u v) :
    q.head? = some u ∧ q.getLast? = some v ∧ q.Nodup
      ∧ List.Chain' (fun a b => g.hasEdge a b = true) q
      ∧ 2 ≤ q.length
      ∧ ∀ x ∈ q, x = u ∨ x ∈ g.edges.map (fun e => e.1.2) := by
  unfold allSimplePaths at hq
  split at hq
  · cases hq
  · rename_i huv
    have hvnotu : v ∉ ([u] : List Node) := by
      intro h
      rcases List.mem_singleton.1 h with rfl
      exact huv rfl
    rcases allSimplePathsAux_sound g v g.nodes.length u [u] q hq rfl
        (List.nodup_singleton u) hvnotu (List.chain'_singleton u)
      with ⟨w, rfl, hwh, hwnd, hwch, hwl, hwlen, hwmem⟩
    refine ⟨?_, ?_, ?_, ?_, ?_, ?_⟩
    · rw [List.head?_reverse, hwl]
      rfl
    · rw [List.getLast?_reverse, hwh]
    · exact List.nodup_reverse.2 hwnd
    · exact List.chain'_reverse.2 hwch
    · rw [List.length_reverse]
      simpa using hwlen
    · intro x hx
      rcases hwmem x (List.mem_reverse.1 hx) with hx' | hx'
      · exact Or.inl (List.mem_singleton.1 hx')
      · exact Or.inr hx'

theorem contig_fold_spec :
    ∀ (t : List Node) (acc : List Char), acc ≠ [] → (∀ x ∈ t, x ≠ []) →
      t.foldlM
        (fun acc node =>
          if acc.length = 0 then some (acc ++ node)
          else (node.getLast?).map (fun c => acc ++ [c]))
        acc
        = some (acc ++ t.flatMap (fun n => (n.getLast?).toList)) := by
  intro t
  induction t with
  | nil => intro acc _ _; simp
  | cons nd t ih =>
    intro acc hacc ht
    have hlen : ¬ acc.length = 0 := by
      simpa [List.length_eq_zero] using hacc
    have hnd : nd ≠ [] := ht nd (List.mem_cons_self nd t)
    have hlast : nd.getLast?.isSome := by
      cases nd with
      | nil => exact absurd rfl hnd
      | cons c nd' => simp
    rcases Option.isSome_iff_exists.1 hlast with ⟨c, hc⟩
    rw [List.foldlM_cons]
    simp only [if_neg hlen, hc, Option.map_some']
    show List.foldlM
        (fun acc node =>
          if acc.length = 0 then some (acc ++ node)
          else (node.getLast?).map (fun c => acc ++ [c]))
        (acc ++ [c]) t = _
    rw [ih (acc ++ [c]) (by simp) (fun x hx => ht x (List.mem_cons_of_mem nd hx))]
    simp [hc]

theorem contig_of_path_spec (p : List Node) (hne : p ≠ []) (hx : ∀ x ∈ p, x ≠ []) :
    contig_of_path p = some (specContigSeq p)
      ∧ (specContigSeq p).length = (p.head?.getD []).length + (p.length - 1) := by
  match p, hne with
  | h :: t, _ =>
    have hh : h ≠ [] := hx h (List.mem_cons_self h t)
    have hxt : ∀ x ∈ t, x ≠ [] := fun x hxm => hx x (List.mem_cons_of_mem h hxm)
    constructor
    · unfold contig_of_path
      rw [List.foldlM_cons]
      simp only [List.length_nil, if_pos rfl, List.nil_append]
      show List.foldlM
          (fun acc node =>
            if acc.length = 0 then some (acc ++ node)
            else (node.getLast?).map (fun c => acc ++ [c]))
          h t = _
      rw [contig_fold_spec t h hh hxt]
      unfold specContigSeq
      simp
    · unfold specContigSeq
      simp only [List.head?_cons, Option.getD_some, List.tail_cons, List.length_append,
        List.length_cons, Nat.add_sub_cancel]
      congr 1
      have : ∀ (l : List Node), (∀ x ∈ l, x ≠ []) →
          (l.flatMap (fun n => (n.getLast?).toList)).length = l.length := by
        intro l
        induction l with
        | nil => intro _; rfl
        | cons y l' ihl =>
          intro hl
          have hy : y ≠ [] := hl y (List.mem_cons_self y l')
          have hlast : y.getLast?.isSome := by
            cases y with
            | nil => exact absurd rfl hy
            | cons c y' => simp
          rcases Option.isSome_iff_exists.1 hlast with ⟨c, hc⟩
          simp only [List.flatMap_cons, List.length_append, hc, Option.toList_some,
            List.length_singleton, List.length_cons]
          rw [ihl (fun x hxm => hl x (List.mem_cons_of_mem y hxm))]
          exact Nat.add_comm 1 l'.length
      exact this t hxt

theorem mapM_some_spec {α β : Type} (f : α → Option β) :
    ∀ (l : List α), (∀ x ∈ l, (f x).isSome) →
      ∃ ys, l.mapM f = some ys ∧ ∀ y ∈ ys, ∃ x ∈ l, f x = some y := by
  intro l
  induction l with
  | nil => intro _; exact ⟨[], rfl, by simp⟩
  | cons x t ih =>
    intro hl
    rcases Option.isSome_iff_exists.1 (hl x (List.mem_cons_self x t)) with ⟨y, hy⟩
    rcases ih (fun z hz => hl z (List.mem_cons_of_mem x hz)) with ⟨ys, hys, hmem⟩
    refine ⟨y :: ys, ?_, ?_⟩
    · rw [List.mapM_cons, hy, hys]
      rfl
    · intro z hz
      rcases List.mem_cons.1 hz with rfl | hz
      · exact ⟨x, List.mem_cons_self x t, hy⟩
      · rcases hmem z hz with ⟨a, ha, hfa⟩
        exact ⟨a, List.mem_cons_of_mem x ha, hfa⟩

/-- **C7 (amended).** On a graph whose edges stay within its node list and
whose nodes (and starting nodes) are nonempty strings, every
(sequence, length) pair returned by `get_contigs` comes from a simple path
from a starting node to an ending node, its sequence is the first node in
full followed by the last character of every subsequent node, and its
reported length is the first node's length plus the path's edge count. -/
theorem get_contigs_spec (g : Graph) (starts ends : List Node)
    (hclosed : ∀ e ∈ g.edges, e.1.1 ∈ g.nodes ∧ e.1.2 ∈ g.nodes)
    (hnodes : ∀ n ∈ g.nodes, n ≠ [])
    (hstarts : ∀ s ∈ starts, s ∈ g.nodes) :
    ∃ out, get_contigs g starts ends = some out
      ∧ ∀ pr ∈ out, ∃ s t p, s ∈ starts ∧ t ∈ ends ∧ p ∈ allSimplePaths g s t
          ∧ p.head? = some s ∧ p.getLast? = some t ∧ p.Nodup
          ∧ List.Chain' (fun a b => g.hasEdge a b = true) p ∧ 2 ≤ p.length
          ∧ pr.1 = specContigSeq p ∧ pr.2 = s.length + (p.length - 1) := by
  set L := starts.flatMap (fun s => ends.flatMap (fun t =>
    if has_path g s t then allSimplePaths g s t else [])) with hL
  have hsrc : ∀ q ∈ L, ∃ s, s ∈ starts ∧ ∃ t, t ∈ ends ∧ q ∈ allSimplePaths g s t := by
    intro q hq
    rw [hL] at hq
    rcases List.mem_flatMap.1 hq with ⟨s, hsS, hq2⟩
    rcases List.mem_flatMap.1 hq2 with ⟨t, htE, hq3⟩
    refine ⟨s, hsS, t, htE, ?_⟩
    by_cases hp : has_path g s t
    · rwa [if_pos hp] at hq3
    · rw [if_neg hp] at hq3
      cases hq3
  have hnonempty : ∀ q ∈ L, ∀ x ∈ q, x ≠ [] := by
    intro q hq x hxq
    rcases hsrc q hq with ⟨s, hsS, t, htE, hqP⟩
    rcases allSimplePaths_sound g s t q hqP with ⟨-, -, -, -, -, hmem⟩
    rcases hmem x hxq with rfl | hx
    · exact hnodes x (hstarts x hsS)
    · rcases List.mem_map.1 hx with ⟨e, he, rfl⟩
      exact hnodes _ (hclosed e he).2
  have hq_ne : ∀ q ∈ L, q ≠ [] := by
    intro q hq
    rcases hsrc q hq with ⟨s, -, t, -, hqP⟩
    have h2 := (allSimplePaths_sound g s t q hqP).2.2.2.2.1
    intro hnil
    rw [hnil] at h2
    simp at h2
  have hfok : ∀ q ∈ L, ((contig_of_path q).map (fun c => (c, c.length))).isSome := by
    intro q hq
    rw [(contig_of_path_spec q (hq_ne q hq) (hnonempty q hq)).1]
    rfl
  rcases mapM_some_spec _ L hfok with ⟨out, hout, hmem⟩
  refine ⟨out, ?_, ?_⟩
  · unfold get_contigs
    rw [← hL]
    exact hout
  · intro pr hpr
    rcases hmem pr hpr with ⟨q, hqL, hf⟩
    rcases hsrc q hqL with ⟨s, hsS, t, htE, hqP⟩
    obtain ⟨hh, hl, hnd, hch, hlen, -⟩ := allSimplePaths_sound g s t q hqP
    have hcs := contig_of_path_spec q (hq_ne q hqL) (hnonempty q hqL)
    rw [hcs.1] at hf
    simp only [Option.map_some', Option.some.injEq] at hf
    refine ⟨s, t, q, hsS, htE, hqP, hh, hl, hnd, hch, hlen, ?_, ?_⟩
    · rw [← hf]
    · rw [← hf]
      show (specContigSeq q).length = s.length + (q.length - 1)
      rw [hcs.2, hh]
      rfl

/-- **C7 (counterexample).** With the empty string as starting node, the
inner loop appends the full second node while the accumulator is still
empty: the only simple path `["", "ab"]` yields the pair `("ab", 2)`, while
the claim's formula gives sequence `"b"` and length `0 + 1 = 1`. -/
theorem get_contigs_empty_node_cx :
    get_contigs gEmptyNode [[]] [['a', 'b']] = some [(['a', 'b'], 2)]
      ∧ allSimplePaths gEmptyNode [] ['a', 'b'] = [[[], ['a', 'b']]]
      ∧ specContigSeq [[], ['a', 'b']] = ['b']
      ∧ ([] : List Char).length + (([[], ['a', 'b']] : List Node).length - 1) = 1
      ∧ ((['a', 'b'], 2) : List Char × Nat) ≠ (['b'], 1) := by
  refine ⟨by decide, by decide, by decide, by decide, by decide⟩

/-- Witness for the amended C7: on the chain `a → b → c` the single contig
is `"abc"` with length 3 and matches the claimed formula. -/
theorem get_contigs_spec_witness :
    ∃ out, get_contigs gChain [['a']] [['c']] = some out
      ∧ ∀ pr ∈ out, ∃ s t p, s ∈ [['a']] ∧ t ∈ [['c']]
          ∧ p ∈ allSimplePaths gChain s t
          ∧ p.head? = some s ∧ p.getLast? = some t ∧ p.Nodup
          ∧ List.Chain' (fun a b => gChain.hasEdge a b = true) p ∧ 2 ≤ p.length
          ∧ pr.1 = specContigSeq p ∧ pr.2 = s.length + (p.length - 1) :=
  get_contigs_spec gChain [['a']] [['c']] (by decide) (by decide) (by decide)

/-! ## Claim C10: `remove_paths` and `select_best_path` do not write the
argument object -/

theorem select_fold_pairs (best : List Node) (de ds : Bool) :
    ∀ (pl : List (List Node)) (store : List Graph) (cur : Nat),
      ∃ ext,
        (pl.foldl
            (fun sc p => if p ≠ best then remove_paths_imp sc.1 sc.2 [p] de ds else sc)
            (store, cur)).1 = store ++ ext
        ∧ (pl.foldl
              (fun sc p => if p ≠ best then remove_paths_imp sc.1 sc.2 [p] de ds else sc)
              (store, cur)).1.getD
            (pl.foldl
              (fun sc p => if p ≠ best then remove_paths_imp sc.1 sc.2 [p] de ds else sc)
              (store, cur)).2 default
          = pl.foldl (fun h p => if p ≠ best then remove_paths h [p] de ds else h)
              (store.getD cur default) := by
  intro pl
  induction pl with
  | nil =>
    intro store cur
    exact ⟨[], by simp, rfl⟩
  | cons p t ih =>
    intro store cur
    by_cases hp : p ≠ best
    · have hstep : (if p ≠ best then remove_paths_imp store cur [p] de ds else (store, cur))
          = (store ++ [remove_paths (store.getD cur default) [p] de ds], store.length) := by
        rw [if_pos hp]
        rfl
      rcases ih (store ++ [remove_paths (store.getD cur default) [p] de ds]) store.length
        with ⟨ext, hext, hval⟩
      refine ⟨[remove_paths (store.getD cur default) [p] de ds] ++ ext, ?_, ?_⟩
      · simp only [List.foldl_cons, hstep]
        rw [hext, List.append_assoc]
      · simp only [List.foldl_cons, hstep]
        rw [hval]
        congr 1
        rw [List.getD_eq_get?, List.get?_concat_length, if_pos hp]
        exact Option.getD_some
    · rw [not_not] at hp
      have hstep : (if p ≠ best then remove_paths_imp store cur [p] de ds else (store, cur))
          = (store, cur) := by
        rw [if_neg (by rw [hp]; exact fun h => h rfl)]
      rcases ih store cur with ⟨ext, hext, hval⟩
      refine ⟨ext, ?_, ?_⟩
      · simp only [List.foldl_cons, hstep]
        exact hext
      · simp only [List.foldl_cons, hstep]
        rw [hval]
        congr 1
        rw [if_neg (by rw [hp]; exact fun h => h rfl)]

theorem select_best_path_imp_some (rand : Int → Int → Int) (store : List Graph)
    (gid : Nat) (pl : List (List Node)) (plen wavg : List ℚ) (de ds : Bool)
    (st' : List Graph × Nat)
    (h : select_best_path_imp rand store gid pl plen wavg de ds = some st') :
    ∃ best,
      st' = pl.foldl
          (fun sc p => if p ≠ best then remove_paths_imp sc.1 sc.2 [p] de ds else sc)
          (store, gid)
      ∧ select_best_path rand (store.getD gid default) pl plen wavg de ds
          = some (pl.foldl
              (fun h p => if p ≠ best then remove_paths h [p] de ds else h)
              (store.getD gid default)) := by
  unfold select_best_path_imp at h
  cases hA : sampleVariance? wavg <;> rw [hA] at h
  · simp at h
  cases hB : sampleVariance? plen <;> rw [hB] at h
  · simp at h
  simp only [] at h
  split at h
  next => simp at h
  next i heq =>
    cases hG : pyGet pl i <;> rw [hG] at h
    · simp at h
    case some best =>
      simp only [Option.some.injEq] at h
      refine ⟨best, h.symm, ?_⟩
      unfold select_best_path
      rw [hA, hB]
      simp only []
      rw [heq]
      show (match pyGet pl i with
        | none => none
        | some best_path =>
          some (pl.foldl
            (fun h p => if p ≠ best_path then remove_paths h [p] de ds else h)
            (store.getD gid default))) = _
      rw [hG]

/-- **C10.** `remove_paths` starts from `graph.copy()` and mutates only the
copy: in the object-store model, every pre-existing object — in particular
the argument graph — is unchanged, and only the freshly returned object
holds the graph with the deletions applied; `select_best_path`, whose loop
rebinds its local variable to each `remove_paths` result, therefore also
leaves the argument object unmodified, its returned object holding exactly
the functional `select_best_path` result. -/
theorem remove_paths_frame :
    (∀ (store : List Graph) (gid : Nat) (pl : List (List Node)) (de ds : Bool),
        (∀ j, j < store.length →
          (remove_paths_imp store gid pl de ds).1.get? j = store.get? j)
        ∧ (remove_paths_imp store gid pl de ds).1.get?
              (remove_paths_imp store gid pl de ds).2
            = some (remove_paths (store.getD gid default) pl de ds))
      ∧ (∀ (rand : Int → Int → Int) (store : List Graph) (gid : Nat)
            (pl : List (List Node)) (plen wavg : List ℚ) (de ds : Bool)
            (st' : List Graph × Nat),
          select_best_path_imp rand store gid pl plen wavg de ds = some st' →
          (∀ j, j < store.length → st'.1.get? j = store.get? j)
          ∧ ∃ g', select_best_path rand (store.getD gid default) pl plen wavg de ds
                = some g'
              ∧ st'.1.getD st'.2 default = g') := by
  constructor
  · intro store gid pl de ds
    constructor
    · intro j hj
      unfold remove_paths_imp
      simp only []
      exact List.get?_append hj
    · unfold remove_paths_imp
      simp only []
      exact List.get?_concat_length _ _
  · intro rand store gid pl plen wavg de ds st' h
    rcases select_best_path_imp_some rand store gid pl plen wavg de ds st' h
      with ⟨best, rfl, hfun⟩
    rcases select_fold_pairs best de ds pl store gid with ⟨ext, hext, hval⟩
    constructor
    · intro j hj
      rw [hext]
      exact List.get?_append hj
    · exact ⟨_, hfun, hval⟩

/-- Witness for C10 at a concrete store: one stored graph, a path removal
and a two-candidate selection, all hypotheses discharged by evaluation. -/
theorem remove_paths_frame_witness :
    ((∀ j, j < ([gChain] : List Graph).length →
        (remove_paths_imp [gChain] 0 [[['a'], ['b'], ['c']]] false false).1.get? j
          = ([gChain] : List Graph).get? j)
      ∧ (remove_paths_imp [gChain] 0 [[['a'], ['b'], ['c']]] false false).1.get?
            (remove_paths_imp [gChain] 0 [[['a'], ['b'], ['c']]] false false).2
          = some (remove_paths (([gChain] : List Graph).getD 0 default)
              [[['a'], ['b'], ['c']]] false false))
      ∧ ((∀ j, j < ([gChain] : List Graph).length →
            (([gChain, gChain] : List Graph), 1).1.get? j = ([gChain] : List Graph).get? j)
        ∧ ∃ g', select_best_path randZero (([gChain] : List Graph).getD 0 default)
              [[['a'], ['b']], [['a'], ['c']]] [2, 2] [5, 1] false false = some g'
            ∧ (([gChain, gChain] : List Graph), 1).1.getD
                (([gChain, gChain] : List Graph), 1).2 default = g') :=
  ⟨remove_paths_frame.1 [gChain] 0 [[['a'], ['b'], ['c']]] false false,
   remove_paths_frame.2 randZero [gChain] 0 [[['a'], ['b']], [['a'], ['c']]]
     [2, 2] [5, 1] false false ([gChain, gChain], 1) (by decide)⟩
